import Mathlib

/-!
Verification of the pyedi X12 EDI pipeline specification.

The repository's visible sources are debug tools and examples; the core
pipeline (tokenizer, envelope/loop parser, hierarchical-level builder,
structured formatter, expression evaluator / schema mapper, orchestrator)
is modelled here from the specification's component design, and the debug
tools (`count_elements` in pipeline_debugger.py, `lookup` dispatch in
segment_lookup.py, `_find_loop` in edi_inspector.py) are embedded from
their Python sources directly.
-/

namespace PyEDI

/-! ### Tokens and segments (spec section 3, "Token") -/

/-- Modelled from the spec: a Token is a segment identifier plus an ordered
sequence of element values (composite sub-elements are not needed by the
properties below and are kept as flat strings). -/
structure Segment where
  segId : String
  elements : List String
deriving Repr, DecidableEq

/-- The six envelope/trailer segment identifiers consumed structurally by
the envelope parser. -/
def envelopeIds : List String := ["ISA", "IEA", "GS", "GE", "ST", "SE"]

/-- Modelled from the spec: whether a segment is an envelope/trailer
segment. -/
def Segment.isEnvelope (s : Segment) : Bool := envelopeIds.contains s.segId

/-- Number of envelope/trailer segments in a token list. -/
def envCount (l : List Segment) : Nat := (l.filter Segment.isEnvelope).length

/-! ### Tokenizer (spec section 4.1) -/

inductive ParseErr where
  | malformedEnvelope : ParseErr
deriving Repr, DecidableEq

/-- Split a character list on a delimiter character. -/
def splitOnChar (d : Char) : List Char → List (List Char)
  | [] => [[]]
  | c :: cs =>
    let r := splitOnChar d cs
    if c = d then [] :: r
    else
      match r with
      | [] => [[c]]
      | g :: gs => (c :: g) :: gs

def isWhiteChar (c : Char) : Bool :=
  c = ' ' || c = '\t' || c = '\n' || c = '\r'

/-- Drop leading and trailing whitespace characters. -/
def trimChars (cs : List Char) : List Char :=
  ((cs.dropWhile isWhiteChar).reverse.dropWhile isWhiteChar).reverse

/-- Build one token from the characters of one segment chunk. -/
def mkSegment (elemD : Char) (chunk : List Char) : Segment :=
  match (splitOnChar elemD chunk).map List.asString with
  | [] => ⟨"", []⟩
  | sid :: elems => ⟨sid, elems⟩

/-- Modelled from the spec: the Tokenizer discovers the element,
sub-element and segment delimiters at fixed offsets of the fixed-width
interchange header (offsets 3, 104 and 105 of the ISA segment), fails with
`MalformedEnvelope` when the header is shorter than the minimum length or
the delimiters are inconsistent, and otherwise splits the document into an
ordered sequence of Tokens. -/
def tokenize (raw : String) : Except ParseErr (List Segment) :=
  let cs := raw.data
  if cs.length < 106 then .error .malformedEnvelope
  else
    let elemD := cs.getD 3 ' '
    let subD := cs.getD 104 ' '
    let segD := cs.getD 105 ' '
    if elemD = segD || elemD = subD || subD = segD then .error .malformedEnvelope
    else
      .ok (((splitOnChar segD cs).map trimChars).filter (fun c => !c.isEmpty)
            |>.map (mkSegment elemD))

/-! ### Loop nodes and the loop stack (spec sections 3 and 4.2) -/

/-- Modelled from the spec: a Loop Node owns an ordered sequence of
segments belonging directly to it and an ordered sequence of nested Loop
Nodes (repetition preserved in order). -/
inductive Loop where
  | mk (loopId : String) (segs : List Segment) (children : List Loop)

def Loop.loopId : Loop → String
  | .mk i _ _ => i

def Loop.segs : Loop → List Segment
  | .mk _ s _ => s

def Loop.children : Loop → List Loop
  | .mk _ _ c => c

mutual

/-- Total number of segments in a loop tree. -/
def Loop.segCount : Loop → Nat
  | .mk _ segs children => segs.length + segCountList children

def segCountList : List Loop → Nat
  | [] => 0
  | l :: ls => Loop.segCount l + segCountList ls

end

mutual

/-- A loop together with all loops nested below it. -/
def Loop.allLoops : Loop → List Loop
  | .mk i s c => .mk i s c :: allLoopsList c

def allLoopsList : List Loop → List Loop
  | [] => []
  | l :: ls => l.allLoops ++ allLoopsList ls

end

/-- An open (not yet closed) loop on the parser's loop stack. -/
structure OpenLoop where
  loopId : String
  segs : List Segment
  children : List Loop

def OpenLoop.close (o : OpenLoop) : Loop := .mk o.loopId o.segs o.children

abbrev LoopStack := List OpenLoop

def stackIds (st : LoopStack) : List String := st.map OpenLoop.loopId

/-- Close the carried open loop into the next stack entry, repeatedly,
until the loop whose id matches has been closed (spec section 4.2 rule 1:
close loops up to the matching ancestor level). -/
def closeThroughGo (lid : String) (top : OpenLoop) : LoopStack → LoopStack
  | [] => [top]
  | p :: rest =>
    let merged : OpenLoop := { p with children := p.children ++ [top.close] }
    if top.loopId = lid then merged :: rest
    else closeThroughGo lid merged rest

def closeThrough (lid : String) : LoopStack → LoopStack
  | [] => []
  | o :: rest => closeThroughGo lid o rest

/-- Modelled from the spec (section 4.2): one step of the loop parser.  A
segment that the grammar declares as a loop start closes open loops up to
the matching open ancestor (when one is open) and pushes a fresh loop
holding the segment; any other segment attaches to the innermost open
loop. -/
def stepLoop (g : String → Option String) (st : LoopStack) (s : Segment) : LoopStack :=
  match g s.segId with
  | some lid =>
    let st' := if lid ∈ stackIds st then closeThrough lid st else st
    ⟨lid, [s], []⟩ :: st'
  | none =>
    match st with
    | [] => [⟨"", [s], []⟩]
    | top :: rest => { top with segs := top.segs ++ [s] } :: rest

/-- Fold an already-closed loop into the remaining stack, closing
everything down to the bottom. -/
def closeAllGo (l : Loop) : LoopStack → Loop
  | [] => l
  | o :: rest => closeAllGo (.mk o.loopId o.segs (o.children ++ [l])) rest

/-- Close every open loop (spec section 4.2 rule 4). -/
def closeAll : LoopStack → Loop
  | [] => .mk "" [] []
  | o :: rest => closeAllGo o.close rest

/-- Modelled from the spec: the loop parser walks a transaction body once,
maintaining a stack of currently open loops, and returns the transaction
root loop. -/
def buildLoops (g : String → Option String) (txnType : String)
    (body : List Segment) : Loop :=
  closeAll (body.foldl (stepLoop g) [⟨txnType, [], []⟩])

/-! ### Envelope parser (spec sections 4.2 and 6) -/

structure Transaction where
  txnType : String
  controlNum : String
  root : Loop

structure FunctionalGroup where
  header : Segment
  txns : List Transaction

structure Interchange where
  header : Segment
  groups : List FunctionalGroup

def Transaction.segCount (t : Transaction) : Nat := t.root.segCount

def FunctionalGroup.segCount (fg : FunctionalGroup) : Nat :=
  (fg.txns.map Transaction.segCount).sum

def Interchange.segCount (env : Interchange) : Nat :=
  (env.groups.map FunctionalGroup.segCount).sum

/-- Collect a transaction body up to its `SE` trailer; envelope segments
may not appear inside a body (an unterminated transaction is a structural
failure). -/
def takeUntilSE : List Segment → Option (List Segment × List Segment)
  | [] => none
  | s :: rest =>
    if s.segId = "SE" then some ([], rest)
    else if s.isEnvelope then none
    else
      match takeUntilSE rest with
      | some (body, rem) => some (s :: body, rem)
      | none => none

/-- Parse a maximal run of `ST … SE` transaction blocks (fuel-indexed to
keep the recursion structural). -/
def parseTxnsF (g : String → Option String) : Nat → List Segment →
    Option (List Transaction × List Segment)
  | _, [] => some ([], [])
  | 0, s :: rest =>
    if s.segId = "ST" then none else some ([], s :: rest)
  | fuel + 1, s :: rest =>
    if s.segId = "ST" then
      match takeUntilSE rest with
      | some (body, rem) =>
        match parseTxnsF g fuel rem with
        | some (txns, after) =>
          let ty := s.elements.headD ""
          some (⟨ty, s.elements.getD 1 "", buildLoops g ty body⟩ :: txns, after)
        | none => none
      | none => none
    else some ([], s :: rest)

def parseTxns (g : String → Option String) (l : List Segment) :
    Option (List Transaction × List Segment) :=
  parseTxnsF g l.length l

/-- Parse a maximal run of `GS … GE` functional groups. -/
def parseGroupsF (g : String → Option String) : Nat → List Segment →
    Option (List FunctionalGroup × List Segment)
  | _, [] => some ([], [])
  | 0, s :: rest =>
    if s.segId = "GS" then none else some ([], s :: rest)
  | fuel + 1, s :: rest =>
    if s.segId = "GS" then
      match parseTxns g rest with
      | some (txns, after) =>
        match after with
        | ge :: rem2 =>
          if ge.segId = "GE" then
            match parseGroupsF g fuel rem2 with
            | some (groups, rem3) => some (⟨s, txns⟩ :: groups, rem3)
            | none => none
          else none
        | [] => none
      | none => none
    else some ([], s :: rest)

def parseGroups (g : String → Option String) (l : List Segment) :
    Option (List FunctionalGroup × List Segment) :=
  parseGroupsF g l.length l

/-- Modelled from the spec: the envelope parser consumes the token stream
as `ISA`, then functional groups, then `IEA`, producing the generic tree
interchange → functional groups → transaction sets → loop trees. -/
def parseDoc (g : String → Option String) (toks : List Segment) :
    Option Interchange :=
  match toks with
  | [] => none
  | isa :: rest =>
    if isa.segId = "ISA" then
      match parseGroups g rest with
      | some (groups, [iea]) =>
        if iea.segId = "IEA" then some ⟨isa, groups⟩ else none
      | _ => none
    else none

/-! ### Hierarchical-level tree builder (spec section 4.3) -/

/-- An HL segment's extracted content: own ID, optional parent ID, and
level code. -/
structure HLSeg where
  ownId : String
  parentId : Option String
  levelCode : String
deriving Repr, DecidableEq

inductive HLError where
  | orphanHierarchicalLevel (ownId parentId : String)
deriving Repr, DecidableEq

/-- One entry of the ID→node index used by the single-pass builder (the
index-based arena representation of spec section 9). -/
structure HLRec where
  levelCode : String
  parentId : Option String
  childIds : List String
deriving Repr, DecidableEq

/-- Modelled from the spec: the HL forest, as the builder's ID→node index
(in insertion order) together with the ordered sequence of root IDs. -/
structure HLForest where
  index : List (String × HLRec)
  roots : List String
deriving Repr, DecidableEq

/-- Append a child id to the children list of the first index entry with
the given key. -/
def appendChild (idx : List (String × HLRec)) (pid cid : String) :
    List (String × HLRec) :=
  match idx with
  | [] => []
  | (k, r) :: rest =>
    if k = pid then (k, { r with childIds := r.childIds ++ [cid] }) :: rest
    else (k, r) :: appendChild rest pid cid

def hasKey (idx : List (String × HLRec)) (k : String) : Bool :=
  idx.any (fun p => p.1 == k)

/-- One step of the HL builder: look the declared parent up among the
nodes already seen; fail with `OrphanHierarchicalLevel` when it is absent,
otherwise append self to the parent's children list; parentless nodes are
collected as roots.  The own node is then inserted into the index. -/
def stepHL (f : HLForest) (s : HLSeg) : Except HLError HLForest :=
  match s.parentId with
  | none =>
    .ok ⟨f.index ++ [(s.ownId, ⟨s.levelCode, none, []⟩)], f.roots ++ [s.ownId]⟩
  | some p =>
    if hasKey f.index p then
      .ok ⟨appendChild f.index p s.ownId ++ [(s.ownId, ⟨s.levelCode, some p, []⟩)],
           f.roots⟩
    else .error (.orphanHierarchicalLevel s.ownId p)

def buildHLGo (f : HLForest) : List HLSeg → Except HLError HLForest
  | [] => .ok f
  | s :: rest =>
    match stepHL f s with
    | .ok f' => buildHLGo f' rest
    | .error e => .error e

/-- Modelled from the spec (section 4.3): single forward pass over the HL
segments of one transaction, building the forest incrementally. -/
def buildHL (segs : List HLSeg) : Except HLError HLForest :=
  buildHLGo ⟨[], []⟩ segs

/-- Number of times an id occurs as a child anywhere in the forest. -/
def childOccurrences (f : HLForest) (cid : String) : Nat :=
  (f.index.map (fun p => (p.2.childIds.filter (fun c => c == cid)).length)).sum

/-- The children recorded for a given node id (first index entry wins). -/
def childrenOf (f : HLForest) (k : String) : List String :=
  match f.index.find? (fun p => p.1 == k) with
  | some p => p.2.childIds
  | none => []

/-- Extract HL segments from a transaction body: segments with id `HL`,
reading element 1 as own ID, element 2 as parent ID (empty means none) and
element 3 as level code. -/
def hlOfSegment (s : Segment) : Option HLSeg :=
  if s.segId = "HL" then
    some ⟨s.elements.headD "",
          (fun p => if p = "" then none else some p) (s.elements.getD 1 ""),
          s.elements.getD 2 ""⟩
  else none

def hlSegsOfBody (body : List Segment) : List HLSeg :=
  body.filterMap hlOfSegment

/-! ### JSON documents and serialization -/

/-- Structured JSON documents exchanged between pipeline stages. -/
inductive JSON where
  | null : JSON
  | bool (b : Bool) : JSON
  | num (n : Int) : JSON
  | str (s : String) : JSON
  | arr (items : List JSON) : JSON
  | obj (fields : List (String × JSON)) : JSON

mutual

/-- Byte-level serialization of a document (string escaping is not needed
by the properties below). -/
def JSON.toStr : JSON → String
  | .null => "null"
  | .bool b => if b then "true" else "false"
  | .num n => toString n
  | .str s => "\"" ++ s ++ "\""
  | .arr items => "[" ++ arrStr items ++ "]"
  | .obj fields => "\x7b" ++ objStr fields ++ "\x7d"

def arrStr : List JSON → String
  | [] => ""
  | [x] => x.toStr
  | x :: y :: xs => x.toStr ++ "," ++ arrStr (y :: xs)

def objStr : List (String × JSON) → String
  | [] => ""
  | [(k, v)] => "\"" ++ k ++ "\":" ++ v.toStr
  | (k, v) :: y :: xs => "\"" ++ k ++ "\":" ++ v.toStr ++ "," ++ objStr (y :: xs)

end

def JSON.isNull : JSON → Bool
  | .null => true
  | _ => false

def JSON.getField (d : JSON) (k : String) : Option JSON :=
  match d with
  | .obj fields => (fields.find? (fun p => p.1 == k)).map (fun p => p.2)
  | _ => none

def JSON.getIndex (d : JSON) (i : Int) : Option JSON :=
  match d with
  | .arr items =>
    let j : Int := if i < 0 then (items.length : Int) + i else i
    if j < 0 then none else items.get? j.toNat
  | _ => none

/-! ### Expression language and schema mapper (spec sections 4.5 and 6) -/

/-- One step of a navigation path: a field name or an array index
(negative index counts from the end). -/
inductive Step where
  | field (name : String)
  | index (i : Int)
deriving Repr, DecidableEq

/-- Modelled from the spec: the compiled Expression AST (the subset of
primitives exercised by the stated properties: field-path navigation with
array indexing, the count aggregate, and named lookup-table lookups). -/
inductive Expr where
  | path (steps : List Step)
  | count (steps : List Step)
  | lookupTable (table : String) (keySteps : List Step)
deriving Repr, DecidableEq

inductive MapErr where
  | mappingFieldMissing (field : String)
  | unknownLookupTable (table : String)
  | expressionSyntaxError (text : String)
deriving Repr, DecidableEq

/-- Modelled from the spec: a Lookup Table is a named, ordered sequence of
flat records indexed by a declared key field. -/
structure LookupTable where
  name : String
  keyField : String
  records : List (List (String × String))
deriving Repr, DecidableEq

/-- Mapping-type flag (spec section 6). -/
inductive MapMode where
  | onlyMapped
  | passThrough
  | strict
deriving Repr, DecidableEq

/-- Modelled from the spec: a Mapping Definition: a name, a mapping-type
flag, an ordered mapping of output field path to expression string, and
named lookup tables. -/
structure MappingDef where
  name : String
  mode : MapMode
  exprs : List (String × String)
  tables : List LookupTable

/-- Navigate a path from a document node; any miss yields `none`. -/
def navigate (d : JSON) : List Step → Option JSON
  | [] => some d
  | .field k :: rest =>
    match d.getField k with
    | some v => navigate v rest
    | none => none
  | .index i :: rest =>
    match d.getIndex i with
    | some v => navigate v rest
    | none => none

/-- Modelled from the spec: tree-walking evaluation of one compiled
expression against the structured document.  Missing paths evaluate to
null rather than raising; a lookup-table miss yields null; referencing a
lookup table that does not exist is the mapping-time error
`UnknownLookupTable`. -/
def evalExpr (tables : List LookupTable) (d : JSON) : Expr → Except MapErr JSON
  | .path steps => .ok ((navigate d steps).getD .null)
  | .count steps =>
    match navigate d steps with
    | some (.arr items) => .ok (.num items.length)
    | some .null => .ok (.num 0)
    | some _ => .ok (.num 1)
    | none => .ok .null
  | .lookupTable t keySteps =>
    match tables.find? (fun tb => tb.name == t) with
    | none => .error (.unknownLookupTable t)
    | some tb =>
      match navigate d keySteps with
      | some (.str key) =>
        match tb.records.find?
            (fun r => (r.find? (fun f => f.1 == tb.keyField)).map (fun f => f.2)
                        == some key) with
        | some r => .ok (.obj (r.map (fun f => (f.1, .str f.2))))
        | none => .ok .null
      | _ => .ok .null

/-- Whether the first character list starts with the second. -/
def startsWithChars : List Char → List Char → Bool
  | _, [] => true
  | [], _ :: _ => false
  | c :: cs, p :: ps => c == p && startsWithChars cs ps

def lastIs (cs : List Char) (c : Char) : Bool := cs.getLast? == some c

/-- Numeric value of a digit string. -/
def natOfDigits (cs : List Char) : Nat :=
  cs.foldl (fun n c => n * 10 + (c.toNat - 48)) 0

/-- Parse one dotted path component: digits (with optional leading minus)
are an array index, anything else a field name; an empty component is a
syntax error. -/
def parseComp (c : List Char) : Option Step :=
  if c.isEmpty then none
  else if c.all Char.isDigit then some (.index (natOfDigits c))
  else if c.headD ' ' == '-' && (!c.tail.isEmpty && c.tail.all Char.isDigit) then
    some (.index (-(natOfDigits c.tail)))
  else some (.field (List.asString c))

def parsePath (cs : List Char) : Option (List Step) :=
  (splitOnChar '.' cs).mapM parseComp

/-- Modelled from the spec: expression compilation (string → AST); a
malformed expression is the compile-time error `ExpressionSyntaxError`.
Concrete syntax: `$count(path)`, `$lookupTable(table,path)`, or a dotted
navigation path. -/
def compile (s : String) : Except MapErr Expr :=
  let cs := s.data
  if startsWithChars cs "$count(".data && lastIs cs ')' then
    match parsePath ((cs.drop 7).dropLast) with
    | some steps => .ok (.count steps)
    | none => .error (.expressionSyntaxError s)
  else if startsWithChars cs "$lookupTable(".data && lastIs cs ')' then
    match splitOnChar ',' ((cs.drop 13).dropLast) with
    | [t, p] =>
      match parsePath p with
      | some steps => .ok (.lookupTable (List.asString t) steps)
      | none => .error (.expressionSyntaxError s)
    | _ => .error (.expressionSyntaxError s)
  else
    match parsePath cs with
    | some steps => .ok (.path steps)
    | none => .error (.expressionSyntaxError s)

/-- The compiled-expression cache, keyed by expression text (spec section
3: parsed once per unique expression string and cached). -/
abbrev Cache := List (String × Expr)

/-- Compile through the cache: a hit returns the cached AST, a miss
compiles and stores the result. -/
def compileCached (c : Cache) (s : String) : Except MapErr Expr × Cache :=
  match c.find? (fun p => p.1 == s) with
  | some p => (.ok p.2, c)
  | none =>
    match compile s with
    | .ok e => (.ok e, c ++ [(s, e)])
    | .error err => (.error err, c)

/-- A cache is coherent when every entry stores the compilation of its
key. -/
def CacheOK (c : Cache) : Prop := ∀ p ∈ c, compile p.1 = .ok p.2

/-- Compile every expression of a Mapping Definition (fail fast, before
any document is evaluated). -/
def compileAll (c : Cache) : List (String × String) →
    Except MapErr (List (String × Expr)) × Cache
  | [] => (.ok [], c)
  | (k, s) :: rest =>
    match compileCached c s with
    | (.ok e, c1) =>
      match compileAll c1 rest with
      | (.ok ces, c2) => (.ok ((k, e) :: ces), c2)
      | (.error err, c2) => (.error err, c2)
    | (.error err, c1) => (.error err, c1)

/-- Evaluate the compiled fields in declaration order; in `strict` mode a
field that evaluates to null is the error `MappingFieldMissing`. -/
def evalFields (tables : List LookupTable) (mode : MapMode) (d : JSON) :
    List (String × Expr) → Except MapErr (List (String × JSON))
  | [] => .ok []
  | (k, e) :: rest =>
    match evalExpr tables d e with
    | .error err => .error err
    | .ok v =>
      if mode = .strict ∧ v.isNull = true then .error (.mappingFieldMissing k)
      else
        match evalFields tables mode d rest with
        | .ok fs => .ok ((k, v) :: fs)
        | .error err => .error err

/-- In `pass_through` mode unmapped source fields pass through into the
output; otherwise output starts empty. -/
def baseFields (mode : MapMode) (d : JSON) : List (String × JSON) :=
  if mode = .passThrough then
    match d with
    | .obj fs => fs
    | _ => []
  else []

def setField (fs : List (String × JSON)) (k : String) (v : JSON) :
    List (String × JSON) :=
  if fs.any (fun p => p.1 == k) then
    fs.map (fun p => if p.1 == k then (k, v) else p)
  else fs ++ [(k, v)]

/-- Assemble the output document: mapped fields in declaration order over
the mode's base fields. -/
def assemble (mode : MapMode) (d : JSON) (mapped : List (String × JSON)) : JSON :=
  .obj (mapped.foldl (fun acc p => setField acc p.1 p.2) (baseFields mode d))

/-- Modelled from the spec: evaluate a Mapping Definition against one
structured document, threading the compiled-expression cache. -/
def runMapping (m : MappingDef) (c : Cache) (d : JSON) :
    Except MapErr JSON × Cache :=
  match compileAll c m.exprs with
  | (.ok ces, c1) =>
    match evalFields m.tables m.mode d ces with
    | .ok mapped => (.ok (assemble m.mode d mapped), c1)
    | .error e => (.error e, c1)
  | (.error e, c1) => (.error e, c1)

def serializeResult : Except MapErr JSON → String
  | .ok j => "ok:" ++ j.toStr
  | .error (.mappingFieldMissing f) => "error:MappingFieldMissing:" ++ f
  | .error (.unknownLookupTable t) => "error:UnknownLookupTable:" ++ t
  | .error (.expressionSyntaxError s) => "error:ExpressionSyntaxError:" ++ s

/-! ### Structured formatter and pipeline orchestrator (spec sections 4.4, 4.6) -/

/-- Modelled from the spec: the Structured Formatter renames generic
element identifiers via a schema keyed by (segment ID, element position);
elements without a schema entry pass through under their raw identifier. -/
def segToJSON (schema : String → Nat → Option String) (s : Segment) : JSON :=
  .obj (("segment_id", .str s.segId) ::
    s.elements.enum.map (fun p =>
      ((schema s.segId p.1).getD (s.segId ++ toString (p.1 + 1)), .str p.2)))

mutual

def loopToJSON (schema : String → Nat → Option String) : Loop → JSON
  | .mk lid segs children =>
    .obj [("loop_id", .str lid),
          ("segments", .arr (segs.map (segToJSON schema))),
          ("loops", .arr (loopsToJSON schema children))]

def loopsToJSON (schema : String → Nat → Option String) : List Loop → List JSON
  | [] => []
  | l :: ls => loopToJSON schema l :: loopsToJSON schema ls

end

/-- Modelled from the spec: Structured JSON output, preserving the loop
structure with semantic field names. -/
def toStructured (schema : String → Nat → Option String) (env : Interchange) : JSON :=
  .obj [("interchange", segToJSON schema env.header),
        ("transactions", .arr (env.groups.flatMap (fun fg =>
          fg.txns.map (fun t =>
            .obj [("transaction_type", .str t.txnType),
                  ("control_number", .str t.controlNum),
                  ("loops", loopToJSON schema t.root)]))))]

inductive PipeErr where
  | malformedEnvelope
  | malformedStructure
  | mapErr (e : MapErr)
deriving Repr, DecidableEq

/-- Modelled from the spec: the Pipeline Orchestrator sequences
parse → format → map for one document. -/
def processDoc (g : String → Option String) (schema : String → Nat → Option String)
    (m : MappingDef) (raw : String) : Except PipeErr JSON :=
  match tokenize raw with
  | .error _ => .error .malformedEnvelope
  | .ok toks =>
    match parseDoc g toks with
    | none => .error .malformedStructure
    | some env =>
      match (runMapping m [] (toStructured schema env)).1 with
      | .ok out => .ok out
      | .error e => .error (.mapErr e)

/-- Batch output: ordered per-document results plus an error map keyed by
document identity (the document's position in the batch). -/
structure BatchResult where
  results : List (Nat × JSON)
  errors : List (Nat × PipeErr)

def batchGo (g : String → Option String) (schema : String → Nat → Option String)
    (m : MappingDef) (i : Nat) : List String → BatchResult
  | [] => ⟨[], []⟩
  | d :: ds =>
    let rest := batchGo g schema m (i + 1) ds
    match processDoc g schema m d with
    | .ok out => ⟨(i, out) :: rest.results, rest.errors⟩
    | .error e => ⟨rest.results, (i, e) :: rest.errors⟩

/-- Modelled from the spec: batch mode processes an ordered sequence of
documents independently, collecting per-document success/failure so that
one malformed document never aborts the batch. -/
def processBatch (g : String → Option String) (schema : String → Nat → Option String)
    (m : MappingDef) (docs : List String) : BatchResult :=
  batchGo g schema m 0 docs

/-! ### `count_elements` from src/debug_tools/pipeline_debugger.py -/

/-- A Python value as seen by `count_elements`: a dict (keys mapped to
heap references), a list of heap references, or a scalar.  Heap references
allow aliasing and self-referential (cyclic) structures, which an
inductive tree cannot represent. -/
inductive PyVal where
  | dict (entries : List (String × Nat))
  | list (items : List Nat)
  | scalar
deriving Repr

/-- The statistics dictionary returned by `count_elements`. -/
structure Stats where
  keys : Nat
  lists : Nat
  values : Nat
deriving Repr, DecidableEq

def Stats.add (a b : Stats) : Stats :=
  ⟨a.keys + b.keys, a.lists + b.lists, a.values + b.values⟩

/-- Embedding of `count_elements` (pipeline_debugger.py lines 330-351):
any call with `depth > 10` returns zero counts immediately; a dict counts
its keys and recurses into its values at `depth + 1`; a list counts one
and recurses into its items at `depth + 1`; anything else counts one
value.  The heap is an arbitrary total map, so cyclic object graphs are
included. -/
def countElements (h : Nat → PyVal) (r : Nat) (depth : Nat) : Stats :=
  if depth > 10 then ⟨0, 0, 0⟩
  else
    match h r with
    | .dict entries =>
      entries.foldl (fun acc p => acc.add (countElements h p.2 (depth + 1)))
        ⟨entries.length, 0, 0⟩
    | .list items =>
      items.foldl (fun acc v => acc.add (countElements h v (depth + 1)))
        ⟨0, 1, 0⟩
    | .scalar => ⟨0, 0, 1⟩
termination_by 11 - depth
decreasing_by all_goals omega

/-- The depth-truncated unfolding of a heap value: what `count_elements`
actually sees of the object graph. -/
inductive Tree where
  | dict (entries : List (String × Tree))
  | list (items : List Tree)
  | scalar
  | cut

/-- Unfold `fuel` levels of the heap below a reference; deeper structure
is truncated to `cut`. -/
def truncate (h : Nat → PyVal) : Nat → Nat → Tree
  | _, 0 => .cut
  | r, fuel + 1 =>
    match h r with
    | .dict entries => .dict (entries.map (fun p => (p.1, truncate h p.2 fuel)))
    | .list items => .list (items.map (fun v => truncate h v fuel))
    | .scalar => .scalar

mutual

/-- Element counts of a truncated tree (truncation points count as
nothing). -/
def Tree.count : Tree → Stats
  | .dict entries => Stats.add ⟨entries.length, 0, 0⟩ (countPairs entries)
  | .list items => Stats.add ⟨0, 1, 0⟩ (countItems items)
  | .scalar => ⟨0, 0, 1⟩
  | .cut => ⟨0, 0, 0⟩

def countPairs : List (String × Tree) → Stats
  | [] => ⟨0, 0, 0⟩
  | p :: ps => Stats.add p.2.count (countPairs ps)

def countItems : List Tree → Stats
  | [] => ⟨0, 0, 0⟩
  | t :: ts => Stats.add t.count (countItems ts)

end

/-- A self-referential heap: object 0 is a list whose only item is object
0 itself. -/
def cyclicHeap : Nat → PyVal := fun _ => .list [0]

/-! ### `SegmentLookup.lookup` dispatch from src/debug_tools/segment_lookup.py -/

/-- ASCII model of Python's `str.upper`. -/
def upperChar (c : Char) : Char :=
  if 'a' ≤ c ∧ c ≤ 'z' then Char.ofNat (c.toNat - 32) else c

/-- `query.upper().strip()` (segment_lookup.py line 98), on ASCII text. -/
def normalizeQuery (q : List Char) : List Char :=
  trimChars (q.map upperChar)

def isUpperAlphaChar (c : Char) : Bool := 'A' ≤ c && c ≤ 'Z'

def isDigitChar (c : Char) : Bool := '0' ≤ c && c ≤ '9'

/-- Python's `str.isalpha` on ASCII text: nonempty and all letters (after
`upper()` every letter is uppercase). -/
def pyIsAlpha (q : List Char) : Bool :=
  !q.isEmpty && q.all (fun c => isUpperAlphaChar c || ('a' ≤ c && c ≤ 'z'))

/-- `_is_segment` (line 115): `len(query) <= 3 and query.isalpha()`. -/
def isSegmentQuery (q : List Char) : Bool :=
  q.length ≤ 3 && pyIsAlpha q

/-- `_is_element` (line 119): the anchored regular expression of two or
three uppercase letters followed by exactly two digits. -/
def isElementQuery (q : List Char) : Bool :=
  (q.length == 4 || q.length == 5) &&
    (q.take (q.length - 2)).all isUpperAlphaChar &&
    (q.drop (q.length - 2)).all isDigitChar

/-- `_is_code` (line 123): `len(query) <= 5`. -/
def isCodeQuery (q : List Char) : Bool := q.length ≤ 5

inductive LookupBranch where
  | segment
  | element
  | code
  | search
deriving Repr, DecidableEq

/-- Embedding of the dispatch in `SegmentLookup.lookup` (segment_lookup.py
lines 90-111): normalize the query, then try the segment, element and
code-value branches in that order, falling back to partial-match search. -/
def lookupDispatch (q : List Char) : LookupBranch :=
  let n := normalizeQuery q
  if isSegmentQuery n then .segment
  else if isElementQuery n then .element
  else if isCodeQuery n then .code
  else .search

/-- Every open loop's segment list, and every segment list of a loop
already closed beneath it, is a subsequence of the processed input. -/
def StackOK (p : List Segment) (st : LoopStack) : Prop :=
  ∀ o ∈ st, o.segs.Sublist p ∧ ∀ l ∈ allLoopsList o.children, l.segs.Sublist p

/-- Embedding of `_find_loop` (edi_inspector.py lines 251-260): look the
ID up among the current level's loops, then search each loop's nested
loops recursively. -/
def findLoop (lid : String) : List Loop → Option Loop
  | [] => none
  | l :: ls =>
    match (l :: ls).find? (fun x => x.loopId == lid) with
    | some x => some x
    | none =>
      match findLoop lid l.children with
      | some r => some r
      | none => findLoop lid ls
termination_by loops => sizeOf loops
decreasing_by
  · cases l with
    | mk i s c => simp [Loop.children]; omega
  · simp

/-! ### Stack counting and a concrete document -/

/-- Segments held by an open loop and everything nested below it. -/
def OpenLoop.segCount (o : OpenLoop) : Nat := o.segs.length + segCountList o.children

def stackSegCount (st : LoopStack) : Nat := (st.map OpenLoop.segCount).sum

/-- A small but complete 837 document (one group, one transaction, two HL
loops). -/
def exRaw : String :=
  "ISA*00*          *00*          *ZZ*SENDER123      *ZZ*RECEIVER456    *210901*1200*U*00501*000000001*0*P*:~GS*HC*SENDER123*RECEIVER456*20210901*1200*1*X*005010X222A1~ST*837*0001~HL*1**20*1~NM1*85*2*PROVIDER~HL*2*1*22*0~CLM*C1*500~SE*6*0001~GE*1*1~IEA*1*000000001~"

/-- A one-rule grammar: `HL` starts loop 2000. -/
def exG : String → Option String :=
  fun sid => if sid = "HL" then some "2000" else none

/-- The tokens of `exRaw`. -/
def exToks : List Segment :=
  [⟨"ISA", ["00", "          ", "00", "          ", "ZZ", "SENDER123      ",
            "ZZ", "RECEIVER456    ", "210901", "1200", "U", "00501",
            "000000001", "0", "P", ":"]⟩,
   ⟨"GS", ["HC", "SENDER123", "RECEIVER456", "20210901", "1200", "1", "X",
           "005010X222A1"]⟩,
   ⟨"ST", ["837", "0001"]⟩,
   ⟨"HL", ["1", "", "20", "1"]⟩,
   ⟨"NM1", ["85", "2", "PROVIDER"]⟩,
   ⟨"HL", ["2", "1", "22", "0"]⟩,
   ⟨"CLM", ["C1", "500"]⟩,
   ⟨"SE", ["6", "0001"]⟩,
   ⟨"GE", ["1", "1"]⟩,
   ⟨"IEA", ["1", "000000001"]⟩]

/-- The generic tree the parser produces for `exToks` under `exG`. -/
def exEnv : Interchange :=
  ⟨⟨"ISA", ["00", "          ", "00", "          ", "ZZ", "SENDER123      ",
            "ZZ", "RECEIVER456    ", "210901", "1200", "U", "00501",
            "000000001", "0", "P", ":"]⟩,
   [⟨⟨"GS", ["HC", "SENDER123", "RECEIVER456", "20210901", "1200", "1", "X",
             "005010X222A1"]⟩,
     [⟨"837", "0001",
       .mk "837" []
         [.mk "2000" [⟨"HL", ["1", "", "20", "1"]⟩, ⟨"NM1", ["85", "2", "PROVIDER"]⟩] [],
          .mk "2000" [⟨"HL", ["2", "1", "22", "0"]⟩, ⟨"CLM", ["C1", "500"]⟩] []]⟩]⟩]⟩

/-- The trivial formatter schema used by the batch example. -/
def exSchema : String → Nat → Option String := fun _ _ => none

/-- An empty mapping: every accepted document maps to the empty object. -/
def exMapping : MappingDef := ⟨"empty", .onlyMapped, [], []⟩

/-- A batch with one malformed document in the middle. -/
def exBatchDocs : List String := [exRaw, "bad", exRaw]

/-! ### Concrete mapping examples -/

/-- A document without the field `zzz`. -/
def exMissDoc : JSON := .obj [("a", .str "x")]

/-- The spec's example lookup table: records `[{code:"1",category:"paid"}]`
keyed on `code`. -/
def exLookupTables : List LookupTable :=
  [⟨"claim_status_lookup", "code", [[("code", "1"), ("category", "paid")]]⟩]

/-- A document whose claim status code is "4", missing from the table. -/
def exLookupDoc : JSON := .obj [("claim_status", .str "4")]

/-! ### Orphan-freedom predicate and concrete HL example -/

/-- Every HL segment's declared parent has been seen earlier (starting
from an initial set of already-seen ids). -/
def orphanFreeFrom (seen : List String) : List HLSeg → Prop
  | [] => True
  | s :: rest =>
    (∀ p, s.parentId = some p → p ∈ seen) ∧ orphanFreeFrom (seen ++ [s.ownId]) rest

/-- The HL segments of the spec's worked example
`HL*1**20*1~HL*2*1*22*0`. -/
def exHLsegs : List HLSeg := [⟨"1", none, "20"⟩, ⟨"2", some "1", "22"⟩]

/-- The forest the builder produces for `exHLsegs`. -/
def exHLforest : HLForest :=
  ⟨[("1", ⟨"20", none, ["2"]⟩), ("2", ⟨"22", some "1", []⟩)], ["1"]⟩

end PyEDI

namespace PyEDI

/-! ## Theorems -/

/-! ### C9: `count_elements` termination and depth bound -/

theorem Stats.add_assoc (a b c : Stats) : (a.add b).add c = a.add (b.add c) := by
  simp [Stats.add, Nat.add_assoc]

theorem Stats.add_zero_right (a : Stats) : a.add ⟨0, 0, 0⟩ = a := by
  simp [Stats.add]

theorem foldl_stats_add {α : Type} (f : α → Stats) (l : List α) (a : Stats) :
    l.foldl (fun acc x => acc.add (f x)) a
      = a.add (l.foldr (fun x acc => (f x).add acc) ⟨0, 0, 0⟩) := by
  induction l generalizing a with
  | nil => simp [Stats.add_zero_right]
  | cons x xs ih => simp [ih, Stats.add_assoc]

theorem countElements_eq_truncate (h : Nat → PyVal) :
    ∀ fuel r depth, 11 - depth = fuel →
      countElements h r depth = Tree.count (truncate h r fuel) := by
  intro fuel
  induction fuel with
  | zero =>
    intro r depth hd
    have hd10 : depth > 10 := by omega
    rw [countElements]
    simp [hd10, truncate, Tree.count]
  | succ fuel ih =>
    intro r depth hd
    have hd10 : ¬ depth > 10 := by omega
    rw [countElements]
    simp only [if_neg hd10]
    cases hv : h r with
    | dict entries =>
      have hfold : ∀ es : List (String × Nat),
          es.foldr (fun x acc => (countElements h x.2 (depth + 1)).add acc) ⟨0, 0, 0⟩
            = countPairs (es.map (fun p => (p.1, truncate h p.2 fuel))) := by
        intro es
        induction es with
        | nil => simp [countPairs]
        | cons p ps ihp => simp [countPairs, ihp, ih p.2 (depth + 1) (by omega)]
      simp only [truncate, hv, Tree.count, List.length_map]
      rw [foldl_stats_add, hfold]
    | list items =>
      have hfold : ∀ vs : List Nat,
          vs.foldr (fun x acc => (countElements h x (depth + 1)).add acc) ⟨0, 0, 0⟩
            = countItems (vs.map (fun v => truncate h v fuel)) := by
        intro vs
        induction vs with
        | nil => simp [countItems]
        | cons v vs ihv => simp [countItems, ihv, ih v (depth + 1) (by omega)]
      simp only [truncate, hv, Tree.count]
      rw [foldl_stats_add, hfold]
    | scalar => simp [truncate, hv, Tree.count]

/-- C9: the element-counting statistics function of the pipeline debugger
terminates on every heap-represented input value — including cyclic
(self-referential) object graphs, as witnessed by `cyclicHeap` — because
any call with depth greater than 10 returns zero counts immediately;
consequently its counts are exactly the counts of the input truncated to
depth at most 10 (eleven levels from the root). -/
theorem count_elements_depth_bound (h : Nat → PyVal) (r : Nat) :
    (∀ depth, depth > 10 → countElements h r depth = ⟨0, 0, 0⟩) ∧
    countElements h r 0 = Tree.count (truncate h r 11) ∧
    countElements cyclicHeap 0 0 = ⟨0, 11, 0⟩ := by
  refine ⟨?_, ?_, ?_⟩
  · intro depth hdepth
    have : 11 - depth = 0 := by omega
    rw [countElements_eq_truncate h 0 r depth this]
    simp [truncate, Tree.count]
  · exact countElements_eq_truncate h 11 r 0 rfl
  · rw [countElements_eq_truncate cyclicHeap 11 0 0 rfl]
    rfl

/-- C9 witness: the depth cutoff and the truncation equation evaluated on
the self-referential heap. -/
theorem count_elements_depth_bound_witness :
    countElements cyclicHeap 0 11 = ⟨0, 0, 0⟩ ∧
    countElements cyclicHeap 0 0 = Tree.count (truncate cyclicHeap 0 11) := by
  exact ⟨(count_elements_depth_bound cyclicHeap 0).1 11 (by omega),
         (count_elements_depth_bound cyclicHeap 0).2.1⟩

/-! ### C10: `SegmentLookup.lookup` dispatch classification -/

/-- C10: a lookup query whose stripped, uppercased form is at most three
characters long and entirely alphabetic (in Python's `isalpha` sense:
nonempty, all letters) always dispatches to the segment branch, never to
the code-value branch; and the code-value branch is reachable only for
queries that are neither segment-shaped nor element-shaped and whose
normalized form is at most five characters long. -/
theorem segment_lookup_dispatch_classification (q : List Char) :
    ((normalizeQuery q).length ≤ 3 → pyIsAlpha (normalizeQuery q) = true →
       lookupDispatch q = .segment) ∧
    (lookupDispatch q = .code →
       isSegmentQuery (normalizeQuery q) = false ∧
       isElementQuery (normalizeQuery q) = false ∧
       (normalizeQuery q).length ≤ 5) := by
  constructor
  · intro h1 h2
    have hseg : isSegmentQuery (normalizeQuery q) = true := by
      simp only [isSegmentQuery, Bool.and_eq_true, decide_eq_true_eq]
      exact ⟨h1, h2⟩
    simp [lookupDispatch, hseg]
  · intro h
    simp only [lookupDispatch] at h
    by_cases hs : isSegmentQuery (normalizeQuery q) = true
    · simp [hs] at h
    · by_cases he : isElementQuery (normalizeQuery q) = true
      · simp [hs, he] at h
      · by_cases hc : isCodeQuery (normalizeQuery q) = true
        · refine ⟨by simpa using hs, by simpa using he, ?_⟩
          simpa [isCodeQuery] using hc
        · simp [hs, he, hc] at h

/-! ### HL builder lemmas (C2, C3) -/

theorem hasKey_iff (idx : List (String × HLRec)) (k : String) :
    hasKey idx k = true ↔ k ∈ idx.map Prod.fst := by
  simp [hasKey, List.any_eq_true, beq_iff_eq, List.mem_map]

theorem appendChild_keys (idx : List (String × HLRec)) (p c : String) :
    (appendChild idx p c).map Prod.fst = idx.map Prod.fst := by
  induction idx with
  | nil => rfl
  | cons q rest ih =>
    obtain ⟨k', r'⟩ := q
    by_cases hk : k' = p <;> simp [appendChild, hk, ih]

theorem appendChild_mem_ne (idx : List (String × HLRec)) (p c : String)
    (k : String) (r : HLRec) (hne : k ≠ p) :
    ((k, r) ∈ appendChild idx p c) ↔ (k, r) ∈ idx := by
  induction idx with
  | nil => simp [appendChild]
  | cons q rest ih =>
    obtain ⟨k', r'⟩ := q
    by_cases hk : k' = p
    · simp only [appendChild, if_pos hk, List.mem_cons]
      constructor
      · rintro (h | h)
        · injection h with h1 _
          exact absurd (h1.trans hk) hne
        · exact Or.inr h
      · rintro (h | h)
        · injection h with h1 _
          exact absurd (h1.trans hk) hne
        · exact Or.inr h
    · simp only [appendChild, if_neg hk, List.mem_cons, ih]

theorem appendChild_mem_eq (idx : List (String × HLRec)) (p c : String)
    (r : HLRec) (hnd : (idx.map Prod.fst).Nodup) (hmem : (p, r) ∈ idx) :
    (p, { r with childIds := r.childIds ++ [c] }) ∈ appendChild idx p c := by
  induction idx with
  | nil => simp at hmem
  | cons q rest ih =>
    obtain ⟨k', r'⟩ := q
    simp only [List.map_cons, List.nodup_cons] at hnd
    rcases List.mem_cons.mp hmem with h | h
    · injection h with hk hr
      subst hk; subst hr
      simp [appendChild]
    · by_cases hk : k' = p
      · subst hk
        exact absurd (List.mem_map.mpr ⟨(k', r), h, rfl⟩) hnd.1
      · simp only [appendChild, if_neg hk]
        exact List.mem_cons_of_mem _ (ih hnd.2 h)

theorem keyUnique {α : Type} (l : List (String × α)) (k : String) (a b : α)
    (hnd : (l.map Prod.fst).Nodup) (ha : (k, a) ∈ l) (hb : (k, b) ∈ l) : a = b := by
  induction l with
  | nil => simp at ha
  | cons q rest ih =>
    obtain ⟨k', c⟩ := q
    simp only [List.map_cons, List.nodup_cons] at hnd
    rcases List.mem_cons.mp ha with h1 | h1 <;> rcases List.mem_cons.mp hb with h2 | h2
    · injection h1 with hk1 hv1
      injection h2 with hk2 hv2
      rw [hv1, hv2]
    · injection h1 with hk1 hv1
      subst hk1
      exact absurd (List.mem_map.mpr ⟨(k, b), h2, rfl⟩) hnd.1
    · injection h2 with hk2 hv2
      subst hk2
      exact absurd (List.mem_map.mpr ⟨(k, a), h1, rfl⟩) hnd.1
    · exact ih hnd.2 h1 h2

theorem stepHL_keys (f : HLForest) (s : HLSeg) (f' : HLForest)
    (h : stepHL f s = .ok f') :
    f'.index.map Prod.fst = f.index.map Prod.fst ++ [s.ownId] := by
  cases hp : s.parentId with
  | none =>
    simp only [stepHL, hp, Except.ok.injEq] at h
    subst h; simp
  | some p =>
    simp only [stepHL, hp] at h
    split at h
    · simp only [Except.ok.injEq] at h
      subst h; simp [appendChild_keys]
    · simp at h

theorem stepHL_roots (f : HLForest) (s : HLSeg) (f' : HLForest)
    (h : stepHL f s = .ok f') :
    f'.roots = f.roots ++ if s.parentId.isNone then [s.ownId] else [] := by
  cases hp : s.parentId with
  | none =>
    simp only [stepHL, hp, Except.ok.injEq] at h
    subst h; simp [hp]
  | some p =>
    simp only [stepHL, hp] at h
    split at h
    · simp only [Except.ok.injEq] at h
      subst h; simp [hp]
    · simp at h

theorem buildHLGo_append (a b : List HLSeg) : ∀ f f₁,
    buildHLGo f a = .ok f₁ →
    buildHLGo f (a ++ b) = buildHLGo f₁ b := by
  induction a with
  | nil =>
    intro f f₁ h
    simp only [buildHLGo, Except.ok.injEq] at h
    subst h; simp
  | cons s rest ih =>
    intro f f₁ h
    simp only [buildHLGo] at h
    cases hs : stepHL f s with
    | ok f₂ =>
      simp only [hs] at h
      simp only [List.cons_append, buildHLGo, hs]
      exact ih f₂ f₁ h
    | error e => simp [hs] at h

theorem buildHLGo_keys (l : List HLSeg) : ∀ f f',
    buildHLGo f l = .ok f' →
    f'.index.map Prod.fst = f.index.map Prod.fst ++ l.map HLSeg.ownId := by
  induction l with
  | nil =>
    intro f f' h
    simp only [buildHLGo, Except.ok.injEq] at h
    subst h; simp
  | cons s rest ih =>
    intro f f' h
    simp only [buildHLGo] at h
    cases hs : stepHL f s with
    | ok f₁ =>
      simp only [hs] at h
      rw [ih f₁ f' h, stepHL_keys f s f₁ hs]
      simp [List.append_assoc]
    | error e => simp [hs] at h

theorem buildHLGo_roots (l : List HLSeg) : ∀ f f',
    buildHLGo f l = .ok f' →
    f'.roots = f.roots ++ (l.filter (fun s => s.parentId.isNone)).map HLSeg.ownId := by
  induction l with
  | nil =>
    intro f f' h
    simp only [buildHLGo, Except.ok.injEq] at h
    subst h; simp
  | cons s rest ih =>
    intro f f' h
    simp only [buildHLGo] at h
    cases hs : stepHL f s with
    | ok f₁ =>
      simp only [hs] at h
      rw [ih f₁ f' h, stepHL_roots f s f₁ hs]
      by_cases hn : s.parentId.isNone = true
      · simp [List.filter_cons, hn, List.append_assoc]
      · simp [List.filter_cons, hn]
    | error e => simp [hs] at h

theorem buildHLGo_ok_iff (segs : List HLSeg) : ∀ f,
    (∃ f', buildHLGo f segs = .ok f') ↔
      orphanFreeFrom (f.index.map Prod.fst) segs := by
  induction segs with
  | nil => intro f; simp [buildHLGo, orphanFreeFrom]
  | cons s rest ih =>
    intro f
    cases hp : s.parentId with
    | none =>
      have hs : stepHL f s =
          .ok ⟨f.index ++ [(s.ownId, ⟨s.levelCode, none, []⟩)], f.roots ++ [s.ownId]⟩ := by
        simp [stepHL, hp]
      simp only [buildHLGo, hs, orphanFreeFrom, hp]
      rw [ih ⟨f.index ++ [(s.ownId, (⟨s.levelCode, none, []⟩ : HLRec))],
             f.roots ++ [s.ownId]⟩]
      simp
    | some p =>
      by_cases hk : hasKey f.index p = true
      · have hs : stepHL f s =
            .ok ⟨appendChild f.index p s.ownId ++ [(s.ownId, ⟨s.levelCode, some p, []⟩)],
                 f.roots⟩ := by
          simp [stepHL, hp, hk]
        simp only [buildHLGo, hs, orphanFreeFrom, hp]
        rw [ih ⟨appendChild f.index p s.ownId
                  ++ [(s.ownId, (⟨s.levelCode, some p, []⟩ : HLRec))],
               f.roots⟩]
        have hkeys : (appendChild f.index p s.ownId
              ++ [(s.ownId, (⟨s.levelCode, some p, []⟩ : HLRec))]).map Prod.fst
            = f.index.map Prod.fst ++ [s.ownId] := by
          simp [appendChild_keys]
        rw [hkeys]
        constructor
        · intro hrest
          refine ⟨fun p' hp' => ?_, hrest⟩
          cases hp'
          exact (hasKey_iff f.index p).mp hk
        · rintro ⟨_, hrest⟩
          exact hrest
      · have hs : stepHL f s = .error (.orphanHierarchicalLevel s.ownId p) := by
          simp [stepHL, hp, hk]
        simp only [buildHLGo, hs, orphanFreeFrom, hp]
        constructor
        · rintro ⟨f', h⟩
          exact Except.noConfusion h
        · rintro ⟨hfirst, _⟩
          exact absurd ((hasKey_iff f.index p).mpr (hfirst p rfl)) hk

theorem orphanFreeFrom_iff_indexed (segs : List HLSeg) : ∀ seen,
    orphanFreeFrom seen segs ↔
      ∀ i (h : i < segs.length) p,
        (segs.get ⟨i, h⟩).parentId = some p →
        p ∈ seen ++ (segs.take i).map HLSeg.ownId := by
  induction segs with
  | nil => intro seen; simp [orphanFreeFrom]
  | cons s rest ih =>
    intro seen
    simp only [orphanFreeFrom, ih (seen ++ [s.ownId])]
    constructor
    · rintro ⟨h1, h2⟩ i hi p hp
      cases i with
      | zero => simpa using h1 p (by simpa using hp)
      | succ j =>
        have hj : j < rest.length := by simpa using hi
        have := h2 j hj p (by simpa using hp)
        simpa [List.append_assoc] using this
    · intro H
      refine ⟨fun p hp => ?_, fun j hj p hp => ?_⟩
      · have := H 0 (by simp) p (by simpa using hp)
        simpa using this
      · have := H (j + 1) (by simpa using hj) p (by simpa using hp)
        simpa [List.append_assoc] using this

theorem buildHLGo_char (segs : List HLSeg) : ∀ f f',
    buildHLGo f segs = .ok f' →
    ((f.index.map Prod.fst) ++ segs.map HLSeg.ownId).Nodup →
    (∀ k r, (k, r) ∈ f.index → ∃ r', (k, r') ∈ f'.index ∧
       r'.childIds = r.childIds
         ++ ((segs.filter (fun s => s.parentId == some k)).map HLSeg.ownId)) ∧
    (∀ k, k ∉ f.index.map Prod.fst → k ∈ segs.map HLSeg.ownId →
       ∃ r', (k, r') ∈ f'.index ∧
         r'.childIds = (segs.filter (fun s => s.parentId == some k)).map HLSeg.ownId) := by
  induction segs with
  | nil =>
    intro f f' h _
    simp only [buildHLGo, Except.ok.injEq] at h
    subst h
    constructor
    · intro k r hm
      exact ⟨r, hm, by simp⟩
    · intro k _ hk
      simp at hk
  | cons s rest ih =>
    intro f f' h hnd
    simp only [buildHLGo] at h
    cases hp : s.parentId with
    | none =>
      have hs : stepHL f s =
          .ok ⟨f.index ++ [(s.ownId, (⟨s.levelCode, none, []⟩ : HLRec))],
               f.roots ++ [s.ownId]⟩ := by
        simp [stepHL, hp]
      rw [hs] at h
      have hnd' : ((f.index ++ [(s.ownId, (⟨s.levelCode, none, []⟩ : HLRec))]).map
            Prod.fst ++ rest.map HLSeg.ownId).Nodup := by
        simpa [List.append_assoc] using hnd
      obtain ⟨iA, iB⟩ := ih _ f' h hnd'
      have hfil : ∀ k, (s :: rest).filter (fun t => t.parentId == some k)
          = rest.filter (fun t => t.parentId == some k) := by
        intro k
        simp [List.filter_cons, hp]
      have hrl : (s.ownId :: rest.map HLSeg.ownId).Nodup :=
        List.Nodup.of_append_right (by simpa using hnd)
      have hown_notin : s.ownId ∉ rest.map HLSeg.ownId := (List.nodup_cons.mp hrl).1
      constructor
      · intro k r hm
        obtain ⟨r', hm', heq⟩ := iA k r (List.mem_append_left _ hm)
        exact ⟨r', hm', by rw [hfil k]; exact heq⟩
      · intro k hknot hkmem
        rw [List.map_cons] at hkmem
        rcases List.mem_cons.mp hkmem with hke | hke
        · subst hke
          obtain ⟨r', hm', heq⟩ := iA s.ownId ⟨s.levelCode, none, []⟩
            (List.mem_append_right _ (by simp))
          exact ⟨r', hm', by rw [hfil]; simpa using heq⟩
        · have hne : k ≠ s.ownId := fun hcontra => hown_notin (hcontra ▸ hke)
          obtain ⟨r', hm', heq⟩ := iB k (by simp [hknot, hne]) hke
          exact ⟨r', hm', by rw [hfil]; exact heq⟩
    | some p =>
      cases hkc : hasKey f.index p with
      | false =>
        have hs : stepHL f s = .error (.orphanHierarchicalLevel s.ownId p) := by
          simp [stepHL, hp, hkc]
        rw [hs] at h
        exact Except.noConfusion h
      | true =>
        have hs : stepHL f s =
            .ok ⟨appendChild f.index p s.ownId
                   ++ [(s.ownId, (⟨s.levelCode, some p, []⟩ : HLRec))],
                 f.roots⟩ := by
          simp [stepHL, hp, hkc]
        rw [hs] at h
        have hkeys1 : (appendChild f.index p s.ownId
              ++ [(s.ownId, (⟨s.levelCode, some p, []⟩ : HLRec))]).map Prod.fst
            = f.index.map Prod.fst ++ [s.ownId] := by
          simp [appendChild_keys]
        have hnd' : ((appendChild f.index p s.ownId
              ++ [(s.ownId, (⟨s.levelCode, some p, []⟩ : HLRec))]).map Prod.fst
              ++ rest.map HLSeg.ownId).Nodup := by
          rw [hkeys1]
          simpa [List.append_assoc] using hnd
        obtain ⟨iA, iB⟩ := ih _ f' h hnd'
        have hpk : p ∈ f.index.map Prod.fst := (hasKey_iff _ _).mp hkc
        have hrl : (s.ownId :: rest.map HLSeg.ownId).Nodup :=
          List.Nodup.of_append_right (by simpa using hnd)
        have hown_notin : s.ownId ∉ rest.map HLSeg.ownId := (List.nodup_cons.mp hrl).1
        have hdisj := (List.nodup_append.mp (by simpa using hnd :
            (f.index.map Prod.fst ++ (s.ownId :: rest.map HLSeg.ownId)).Nodup)).2.2
        have hown_notkeys : s.ownId ∉ f.index.map Prod.fst :=
          fun hc => hdisj hc (by simp)
        constructor
        · intro k r hm
          by_cases hkp : k = p
          · subst hkp
            have hndf : (f.index.map Prod.fst).Nodup := List.Nodup.of_append_left hnd
            have hmod := appendChild_mem_eq f.index k s.ownId r hndf hm
            obtain ⟨r', hm', heq⟩ := iA k _ (List.mem_append_left _ hmod)
            refine ⟨r', hm', ?_⟩
            rw [heq]
            simp [List.filter_cons, hp, List.append_assoc]
          · have hmem1 : (k, r) ∈ appendChild f.index p s.ownId :=
              (appendChild_mem_ne f.index p s.ownId k r hkp).mpr hm
            obtain ⟨r', hm', heq⟩ := iA k r (List.mem_append_left _ hmem1)
            refine ⟨r', hm', ?_⟩
            rw [heq]
            have hpne : p ≠ k := fun hc => hkp hc.symm
            simp [List.filter_cons, hp, hpne]
        · intro k hknot hkmem
          rw [List.map_cons] at hkmem
          rcases List.mem_cons.mp hkmem with hke | hke
          · subst hke
            obtain ⟨r', hm', heq⟩ := iA s.ownId ⟨s.levelCode, some p, []⟩
              (List.mem_append_right _ (by simp))
            refine ⟨r', hm', ?_⟩
            have hpne : p ≠ s.ownId := fun hc => hown_notkeys (hc ▸ hpk)
            rw [heq]
            simp [List.filter_cons, hp, hpne]
          · have hne : k ≠ s.ownId := fun hcontra => hown_notin (hcontra ▸ hke)
            have hknot1 : k ∉ (appendChild f.index p s.ownId
                ++ [(s.ownId, (⟨s.levelCode, some p, []⟩ : HLRec))]).map Prod.fst := by
              rw [hkeys1]
              simp [hknot, hne]
            obtain ⟨r', hm', heq⟩ := iB k hknot1 hke
            refine ⟨r', hm', ?_⟩
            have hpne : p ≠ k := fun hc => hknot (hc ▸ hpk)
            rw [heq]
            simp [List.filter_cons, hp, hpne]

theorem buildHL_children (segs : List HLSeg) (hnd : (segs.map HLSeg.ownId).Nodup)
    (f : HLForest) (h : buildHL segs = .ok f) :
    ∀ k r, (k, r) ∈ f.index →
      r.childIds = (segs.filter (fun s => s.parentId == some k)).map HLSeg.ownId := by
  have h' : buildHLGo ⟨[], []⟩ segs = .ok f := h
  have hkeys : f.index.map Prod.fst = segs.map HLSeg.ownId := by
    simpa using buildHLGo_keys segs ⟨[], []⟩ f h'
  have hchar := buildHLGo_char segs ⟨[], []⟩ f h' (by simpa using hnd)
  intro k r hm
  have hkmem : k ∈ segs.map HLSeg.ownId := by
    have : k ∈ f.index.map Prod.fst := List.mem_map.mpr ⟨(k, r), hm, rfl⟩
    rwa [hkeys] at this
  obtain ⟨r', hm', heq⟩ := hchar.2 k (by simp) hkmem
  have hndf : (f.index.map Prod.fst).Nodup := by rw [hkeys]; exact hnd
  rw [keyUnique f.index k r r' hndf hm hm']
  exact heq

/-- C3: the HL tree builder fails with `OrphanHierarchicalLevel` if and
only if some HL segment declares a parent ID that was not seen earlier in
the same transaction; on success every node's children list is exactly the
segments declaring it as parent, in source order. -/
theorem hl_orphan_iff (segs : List HLSeg) (hnd : (segs.map HLSeg.ownId).Nodup) :
    ((∃ own par, buildHL segs = .error (.orphanHierarchicalLevel own par)) ↔
      ∃ i, ∃ h : i < segs.length, ∃ p,
        (segs.get ⟨i, h⟩).parentId = some p ∧
        p ∉ (segs.take i).map HLSeg.ownId) ∧
    ∀ f, buildHL segs = .ok f → ∀ k r, (k, r) ∈ f.index →
      r.childIds = (segs.filter (fun s => s.parentId == some k)).map HLSeg.ownId := by
  have hok_iff : (∃ f', buildHL segs = .ok f') ↔ orphanFreeFrom [] segs := by
    simpa using buildHLGo_ok_iff segs ⟨[], []⟩
  have hidx := orphanFreeFrom_iff_indexed segs []
  constructor
  · cases hb : buildHL segs with
    | ok f =>
      have hfree : orphanFreeFrom [] segs := hok_iff.mp ⟨f, hb⟩
      constructor
      · rintro ⟨own, par, herr⟩
        exact Except.noConfusion herr
      · rintro ⟨i, h, p, hp, hnotin⟩
        exact absurd (by simpa using hidx.mp hfree i h p hp) hnotin
    | error e =>
      have hnfree : ¬ orphanFreeFrom [] segs := by
        intro hfree
        obtain ⟨f', hok⟩ := hok_iff.mpr hfree
        rw [hb] at hok
        exact Except.noConfusion hok
      constructor
      · intro _
        by_contra hno
        push_neg at hno
        exact hnfree (hidx.mpr (fun i h p hp => by simpa using hno i h p hp))
      · intro _
        cases e with
        | orphanHierarchicalLevel own par => exact ⟨own, par, rfl⟩
  · intro f hok
    exact buildHL_children segs hnd f hok

/-- C3 witness: the two-segment example builds successfully and its
children lists are the declaring segments in source order. -/
theorem hl_orphan_iff_witness :
    (exHLsegs.map HLSeg.ownId).Nodup ∧
    buildHL exHLsegs = .ok exHLforest ∧
    (∀ k r, (k, r) ∈ exHLforest.index →
      r.childIds = (exHLsegs.filter (fun s => s.parentId == some k)).map HLSeg.ownId) := by
  refine ⟨by decide, rfl, ?_⟩
  exact (hl_orphan_iff exHLsegs (by decide)).2 exHLforest rfl

/-- C2: in the built HL forest, every segment declaring a parent ID
appears among the children of the node with that ID and of no other node,
and every parentless segment appears among the forest's roots. -/
theorem hl_forest_parent_structure (segs : List HLSeg)
    (hnd : (segs.map HLSeg.ownId).Nodup) (f : HLForest)
    (hok : buildHL segs = .ok f) :
    (∀ s ∈ segs, ∀ p, s.parentId = some p →
       s.ownId ∈ childrenOf f p ∧
       ∀ k r, (k, r) ∈ f.index → s.ownId ∈ r.childIds → k = p) ∧
    (∀ s ∈ segs, s.parentId = none → s.ownId ∈ f.roots) := by
  have hok' : buildHLGo ⟨[], []⟩ segs = .ok f := hok
  have hchildren := buildHL_children segs hnd f hok
  have hkeys : f.index.map Prod.fst = segs.map HLSeg.ownId := by
    simpa using buildHLGo_keys segs ⟨[], []⟩ f hok'
  constructor
  · intro s hs p hp
    constructor
    · have hfree : orphanFreeFrom [] segs :=
        (by simpa using buildHLGo_ok_iff segs ⟨[], []⟩ :
          (∃ f', buildHL segs = .ok f') ↔ orphanFreeFrom [] segs).mp ⟨f, hok⟩
      obtain ⟨⟨i, hi⟩, hget⟩ := List.mem_iff_get.mp hs
      have hpin : p ∈ (segs.take i).map HLSeg.ownId := by
        simpa using (orphanFreeFrom_iff_indexed segs []).mp hfree i hi p
          (by rw [hget]; exact hp)
      have hpsegs : p ∈ segs.map HLSeg.ownId :=
        (List.Sublist.map HLSeg.ownId (List.take_sublist i segs)).subset hpin
      have hpkeys : p ∈ f.index.map Prod.fst := by rw [hkeys]; exact hpsegs
      obtain ⟨⟨k0, r0⟩, hmem0, hfst⟩ := List.mem_map.mp hpkeys
      have hfst' : k0 = p := hfst
      have hfind : ∃ a', f.index.find? (fun q => q.1 == p) = some a' := by
        have hsome : (f.index.find? (fun q => q.1 == p)).isSome := by
          rw [List.find?_isSome]
          exact ⟨(k0, r0), hmem0, by simp [hfst']⟩
        exact Option.isSome_iff_exists.mp hsome
      obtain ⟨⟨k1, r1⟩, hfind1⟩ := hfind
      have hk1 : k1 = p := by simpa using List.find?_some hfind1
      have hmem1 : (k1, r1) ∈ f.index := List.mem_of_find?_eq_some hfind1
      subst hk1
      have hco : childrenOf f k1 = r1.childIds := by simp [childrenOf, hfind1]
      rw [hco, hchildren k1 r1 hmem1]
      exact List.mem_map.mpr ⟨s, List.mem_filter.mpr ⟨hs, by simp [hp]⟩, rfl⟩
    · intro k r hm hin
      rw [hchildren k r hm] at hin
      obtain ⟨t, htf, hto⟩ := List.mem_map.mp hin
      obtain ⟨hts, htp⟩ := List.mem_filter.mp htf
      have hts_eq : t = s := List.inj_on_of_nodup_map hnd hts hs hto
      rw [hts_eq] at htp
      have hsome : s.parentId = some k := by simpa using htp
      rw [hp] at hsome
      injection hsome with hpk
      exact hpk.symm
  · intro s hs hp
    have hroots : f.roots = (segs.filter (fun t => t.parentId.isNone)).map HLSeg.ownId := by
      simpa using buildHLGo_roots segs ⟨[], []⟩ f hok'
    rw [hroots]
    exact List.mem_map.mpr ⟨s, List.mem_filter.mpr ⟨hs, by simp [hp]⟩, rfl⟩

/-- C2 witness: `HL*1**20*1` then `HL*2*1*22*0` yields one root "1" whose
single child is "2", and "2" is a child of node "1". -/
theorem hl_forest_parent_structure_witness :
    (exHLsegs.map HLSeg.ownId).Nodup ∧
    buildHL exHLsegs = .ok exHLforest ∧
    exHLforest.roots = ["1"] ∧
    childrenOf exHLforest "1" = ["2"] ∧
    childrenOf exHLforest "2" = [] ∧
    "2" ∈ childrenOf exHLforest "1" := by
  refine ⟨by decide, rfl, rfl, rfl, rfl, ?_⟩
  exact ((hl_forest_parent_structure exHLsegs (by decide) exHLforest rfl).1
    ⟨"2", some "1", "22"⟩ (by decide) "1" rfl).1

/-! ### Mapper determinism (C5) -/

theorem compileCached_fst (c : Cache) (s : String) (hc : CacheOK c) :
    (compileCached c s).1 = compile s := by
  cases hf : c.find? (fun p => p.1 == s) with
  | none =>
    simp only [compileCached, hf]
    cases hcs : compile s <;> simp [hcs]
  | some p =>
    simp only [compileCached, hf]
    have hmem := List.mem_of_find?_eq_some hf
    have hps : p.1 = s := by simpa using List.find?_some hf
    have hcp := hc p hmem
    rw [hps] at hcp
    exact hcp.symm

theorem compileCached_cacheOK (c : Cache) (s : String) (hc : CacheOK c) :
    CacheOK (compileCached c s).2 := by
  cases hf : c.find? (fun p => p.1 == s) with
  | none =>
    simp only [compileCached, hf]
    cases hcs : compile s with
    | ok e =>
      intro p hp
      rcases List.mem_append.mp hp with h | h
      · exact hc p h
      · rcases List.mem_singleton.mp h with rfl
        simpa using hcs
    | error err => exact hc
  | some p =>
    simp only [compileCached, hf]
    exact hc

theorem compileAll_fst (es : List (String × String)) : ∀ c₁ c₂, CacheOK c₁ → CacheOK c₂ →
    (compileAll c₁ es).1 = (compileAll c₂ es).1 := by
  induction es with
  | nil => intro c₁ c₂ _ _; rfl
  | cons ks rest ih =>
    intro c₁ c₂ h₁ h₂
    obtain ⟨k, s⟩ := ks
    cases hcc₁ : compileCached c₁ s with
    | mk r₁ c₁' =>
    cases hcc₂ : compileCached c₂ s with
    | mk r₂ c₂' =>
    have hk₁ : CacheOK c₁' := by
      have := compileCached_cacheOK c₁ s h₁; rwa [hcc₁] at this
    have hk₂ : CacheOK c₂' := by
      have := compileCached_cacheOK c₂ s h₂; rwa [hcc₂] at this
    have hr₁ : r₁ = compile s := by
      have := compileCached_fst c₁ s h₁; rwa [hcc₁] at this
    have hr₂ : r₂ = compile s := by
      have := compileCached_fst c₂ s h₂; rwa [hcc₂] at this
    rw [hr₂, ← hr₁] at hcc₂
    clear hr₂
    cases r₁ with
    | ok e =>
      have hrest := ih c₁' c₂' hk₁ hk₂
      cases ha₁ : compileAll c₁' rest with
      | mk a₁ d₁ =>
      cases ha₂ : compileAll c₂' rest with
      | mk a₂ d₂ =>
      have ha : a₁ = a₂ := by rw [ha₁, ha₂] at hrest; exact hrest
      subst ha
      cases a₁ with
      | ok ces => simp [compileAll, hcc₁, hcc₂, ha₁, ha₂]
      | error e2 => simp [compileAll, hcc₁, hcc₂, ha₁, ha₂]
    | error err => simp [compileAll, hcc₁, hcc₂]

theorem compileAll_cacheOK (es : List (String × String)) : ∀ c, CacheOK c →
    CacheOK (compileAll c es).2 := by
  induction es with
  | nil => intro c h; exact h
  | cons ks rest ih =>
    intro c h
    obtain ⟨k, s⟩ := ks
    cases hcc : compileCached c s with
    | mk r c1 =>
    have hk1 : CacheOK c1 := by
      have := compileCached_cacheOK c s h; rwa [hcc] at this
    cases r with
    | ok e =>
      cases hca : compileAll c1 rest with
      | mk a c2 =>
      have hk2 : CacheOK c2 := by
        have := ih c1 hk1; rwa [hca] at this
      cases a with
      | ok ces => simp only [compileAll, hcc, hca]; exact hk2
      | error e2 => simp only [compileAll, hcc, hca]; exact hk2
    | error err => simp only [compileAll, hcc]; exact hk1

theorem runMapping_fst (m : MappingDef) (d : JSON) (c₁ c₂ : Cache)
    (h₁ : CacheOK c₁) (h₂ : CacheOK c₂) :
    (runMapping m c₁ d).1 = (runMapping m c₂ d).1 := by
  cases ha₁ : compileAll c₁ m.exprs with
  | mk r₁ c₁' =>
  cases ha₂ : compileAll c₂ m.exprs with
  | mk r₂ c₂' =>
  have hr : r₁ = r₂ := by
    have := compileAll_fst m.exprs c₁ c₂ h₁ h₂
    rw [ha₁, ha₂] at this
    exact this
  subst hr
  cases r₁ with
  | ok ces =>
    cases hev : evalFields m.tables m.mode d ces with
    | ok mapped => simp [runMapping, ha₁, ha₂, hev]
    | error e => simp [runMapping, ha₁, ha₂, hev]
  | error e => simp [runMapping, ha₁, ha₂]

theorem runMapping_cacheOK (m : MappingDef) (d : JSON) (c : Cache)
    (h : CacheOK c) : CacheOK (runMapping m c d).2 := by
  cases ha : compileAll c m.exprs with
  | mk r c1 =>
  have hk1 : CacheOK c1 := by
    have := compileAll_cacheOK m.exprs c h; rwa [ha] at this
  cases r with
  | ok ces =>
    cases hev : evalFields m.tables m.mode d ces with
    | ok mapped => simp only [runMapping, ha, hev]; exact hk1
    | error e => simp only [runMapping, ha, hev]; exact hk1
  | error e => simp only [runMapping, ha]; exact hk1

/-- C5: mapping evaluation is deterministic and idempotent — evaluating
the same Mapping Definition twice against the same document (the second
run reusing the cache warmed by the first) yields an identical value and
byte-identical serialized output; the evaluator is a pure function of the
definition and document, so the input document is never mutated. -/
theorem mapping_deterministic_idempotent (m : MappingDef) (d : JSON) :
    (runMapping m (runMapping m [] d).2 d).1 = (runMapping m [] d).1 ∧
    serializeResult ((runMapping m (runMapping m [] d).2 d).1)
      = serializeResult ((runMapping m [] d).1) := by
  have h0 : CacheOK ([] : Cache) := by intro p hp; simp at hp
  have h1 : CacheOK (runMapping m [] d).2 := runMapping_cacheOK m d [] h0
  have heq := runMapping_fst m d (runMapping m [] d).2 [] h1 h0
  exact ⟨heq, by rw [heq]⟩

/-! ### Missing paths and lookup misses (C6, C7) -/

theorem find?_map_setField (k : String) (v : JSON) :
    ∀ fs : List (String × JSON), fs.any (fun p => p.1 == k) = true →
      (fs.map (fun p => if p.1 == k then (k, v) else p)).find?
          (fun p => p.1 == k) = some (k, v) := by
  intro fs
  induction fs with
  | nil => intro h; simp at h
  | cons p fs' ih =>
    intro h
    by_cases hp : (p.1 == k) = true
    · simp only [List.map_cons, if_pos hp]
      exact List.find?_cons_of_pos _ (by simp)
    · have h' : fs'.any (fun q => q.1 == k) = true := by
        rcases List.any_eq_true.mp h with ⟨x, hx, hxk⟩
        rcases List.mem_cons.mp hx with hxe | hx'
        · rw [hxe] at hxk
          exact absurd hxk hp
        · exact List.any_eq_true.mpr ⟨x, hx', hxk⟩
      simp only [List.map_cons, if_neg hp]
      rw [List.find?_cons_of_neg _ (by simpa using hp)]
      exact ih h'

theorem getField_obj_setField (fs : List (String × JSON)) (k : String) (v : JSON) :
    (JSON.obj (setField fs k v)).getField k = some v := by
  simp only [JSON.getField, setField]
  by_cases h : fs.any (fun p => p.1 == k) = true
  · rw [if_pos h, find?_map_setField k v fs h]
    rfl
  · rw [if_neg h]
    have hnone : fs.find? (fun p => p.1 == k) = none := by
      rw [List.find?_eq_none]
      intro x hx hxk
      exact h (List.any_eq_true.mpr ⟨x, hx, hxk⟩)
    rw [List.find?_append, hnone]
    simp

theorem getField_assemble_single (mode : MapMode) (d : JSON) (k : String) (v : JSON) :
    (assemble mode d [(k, v)]).getField k = some v := by
  simp only [assemble, List.foldl_cons, List.foldl_nil]
  exact getField_obj_setField (baseFields mode d) k v

/-- C6: an expression navigating a missing path evaluates to null rather
than raising; under `strict` mapping mode the resulting missing required
field raises `MappingFieldMissing`, while the non-strict modes succeed
with a null output field. -/
theorem missing_path_null (tables : List LookupTable) (d : JSON) (steps : List Step)
    (hmiss : navigate d steps = none) (nm opath s : String)
    (hc : compile s = .ok (.path steps)) :
    evalExpr tables d (.path steps) = .ok .null ∧
    (runMapping ⟨nm, .strict, [(opath, s)], tables⟩ [] d).1 =
      .error (.mappingFieldMissing opath) ∧
    ∀ mode, mode ≠ MapMode.strict →
      (runMapping ⟨nm, mode, [(opath, s)], tables⟩ [] d).1 =
        .ok (assemble mode d [(opath, JSON.null)]) ∧
      (assemble mode d [(opath, JSON.null)]).getField opath = some JSON.null := by
  have heval : evalExpr tables d (.path steps) = .ok .null := by
    simp [evalExpr, hmiss]
  have hcc : compileCached [] s = (.ok (Expr.path steps), [(s, Expr.path steps)]) := by
    simp [compileCached, hc]
  have hca : compileAll [] [(opath, s)] =
      (.ok [(opath, Expr.path steps)], [(s, Expr.path steps)]) := by
    simp [compileAll, hcc]
  refine ⟨heval, ?_, ?_⟩
  · have hev : evalFields tables .strict d [(opath, Expr.path steps)] =
        .error (.mappingFieldMissing opath) := by
      simp [evalFields, heval, JSON.isNull]
    simp [runMapping, hca, hev]
  · intro mode hmode
    have hev : evalFields tables mode d [(opath, Expr.path steps)] =
        .ok [(opath, JSON.null)] := by
      simp [evalFields, heval, JSON.isNull, hmode]
    exact ⟨by simp [runMapping, hca, hev],
           getField_assemble_single mode d opath JSON.null⟩

/-- C6 witness: field `zzz` is missing from the document; strict mode
raises `MappingFieldMissing` and `only_mapped` mode maps it to null. -/
theorem missing_path_null_witness :
    navigate exMissDoc [Step.field "zzz"] = none ∧
    compile "zzz" = .ok (.path [Step.field "zzz"]) ∧
    (runMapping ⟨"m", .strict, [("out", "zzz")], []⟩ [] exMissDoc).1 =
      .error (.mappingFieldMissing "out") ∧
    (runMapping ⟨"m", .onlyMapped, [("out", "zzz")], []⟩ [] exMissDoc).1 =
      .ok (assemble .onlyMapped exMissDoc [("out", JSON.null)]) := by
  have h := missing_path_null [] exMissDoc [Step.field "zzz"] rfl "m" "out" "zzz" rfl
  exact ⟨rfl, rfl, h.2.1, (h.2.2 .onlyMapped (by decide)).1⟩

/-- C7: a lookup-table lookup whose key is not present in the table
evaluates to null and never raises; under the non-strict modes the mapping
run succeeds with a null output field. -/
theorem lookup_miss_null (tables : List LookupTable) (t : String) (tb : LookupTable)
    (htb : tables.find? (fun x => x.name == t) = some tb)
    (d : JSON) (keySteps : List Step) (key : String)
    (hkey : navigate d keySteps = some (.str key))
    (hmiss : ∀ r ∈ tb.records,
      (r.find? (fun f => f.1 == tb.keyField)).map (fun f => f.2) ≠ some key) :
    evalExpr tables d (.lookupTable t keySteps) = .ok .null ∧
    ∀ nm opath s, compile s = .ok (.lookupTable t keySteps) →
      ∀ mode, mode ≠ MapMode.strict →
        (runMapping ⟨nm, mode, [(opath, s)], tables⟩ [] d).1 =
          .ok (assemble mode d [(opath, JSON.null)]) ∧
        (assemble mode d [(opath, JSON.null)]).getField opath = some JSON.null := by
  have hfind : tb.records.find?
      (fun r => ((r.find? (fun f => f.1 == tb.keyField)).map (fun f => f.2))
        == some key) = none := by
    rw [List.find?_eq_none]
    intro r hr
    simpa [beq_iff_eq] using hmiss r hr
  have heval : evalExpr tables d (.lookupTable t keySteps) = .ok .null := by
    simp only [evalExpr, htb, hkey, hfind]
  refine ⟨heval, ?_⟩
  intro nm opath s hc mode hmode
  have hcc : compileCached [] s =
      (.ok (Expr.lookupTable t keySteps), [(s, Expr.lookupTable t keySteps)]) := by
    simp [compileCached, hc]
  have hca : compileAll [] [(opath, s)] =
      (.ok [(opath, Expr.lookupTable t keySteps)],
       [(s, Expr.lookupTable t keySteps)]) := by
    simp [compileAll, hcc]
  have hev : evalFields tables mode d [(opath, Expr.lookupTable t keySteps)] =
      .ok [(opath, JSON.null)] := by
    simp [evalFields, heval, JSON.isNull, hmode]
  exact ⟨by simp [runMapping, hca, hev],
         getField_assemble_single mode d opath JSON.null⟩

/-- C7 witness: the table with records `[{code:"1",category:"paid"}]`
keyed on `code`, queried with code "4", evaluates to null and the
`only_mapped` run succeeds. -/
theorem lookup_miss_null_witness :
    exLookupTables.find? (fun x => x.name == "claim_status_lookup") =
      some ⟨"claim_status_lookup", "code", [[("code", "1"), ("category", "paid")]]⟩ ∧
    navigate exLookupDoc [Step.field "claim_status"] = some (.str "4") ∧
    evalExpr exLookupTables exLookupDoc
      (.lookupTable "claim_status_lookup" [Step.field "claim_status"]) = .ok .null ∧
    (runMapping ⟨"m", .onlyMapped,
        [("cat", "$lookupTable(claim_status_lookup,claim_status)")],
        exLookupTables⟩ [] exLookupDoc).1 =
      .ok (assemble .onlyMapped exLookupDoc [("cat", JSON.null)]) := by
  have h := lookup_miss_null exLookupTables "claim_status_lookup"
    ⟨"claim_status_lookup", "code", [[("code", "1"), ("category", "paid")]]⟩ rfl
    exLookupDoc [Step.field "claim_status"] "4" rfl (by decide)
  exact ⟨rfl, rfl, h.1,
    (h.2 "m" "cat" "$lookupTable(claim_status_lookup,claim_status)" rfl
      .onlyMapped (by decide)).1⟩

/-! ### Segment-count conservation (C1) -/

theorem segCountList_append (a b : List Loop) :
    segCountList (a ++ b) = segCountList a + segCountList b := by
  induction a with
  | nil => simp [segCountList]
  | cons l ls ih => simp [segCountList, ih, Nat.add_assoc]

theorem close_segCount (o : OpenLoop) :
    (OpenLoop.close o).segCount = o.segCount := by
  simp [OpenLoop.close, Loop.segCount, OpenLoop.segCount]

theorem closeThroughGo_sum (lid : String) : ∀ st top,
    stackSegCount (closeThroughGo lid top st) = top.segCount + stackSegCount st := by
  intro st
  induction st with
  | nil => intro top; simp [closeThroughGo, stackSegCount]
  | cons p rest ih =>
    intro top
    simp only [closeThroughGo]
    have hm : OpenLoop.segCount
        { p with children := p.children ++ [top.close] }
        = p.segCount + top.segCount := by
      simp [OpenLoop.segCount, segCountList_append, segCountList, close_segCount]
      omega
    split
    · simp [stackSegCount, hm]
      omega
    · rw [ih]
      simp [stackSegCount, hm]
      omega

theorem closeThrough_sum (lid : String) (st : LoopStack) :
    stackSegCount (closeThrough lid st) = stackSegCount st := by
  cases st with
  | nil => rfl
  | cons o rest =>
    rw [closeThrough, closeThroughGo_sum]
    simp [stackSegCount]

theorem stepLoop_sum (g : String → Option String) (st : LoopStack) (s : Segment) :
    stackSegCount (stepLoop g st s) = stackSegCount st + 1 := by
  cases hg : g s.segId with
  | some lid =>
    simp only [stepLoop, hg]
    by_cases hmem : lid ∈ stackIds st
    · simp [hmem, stackSegCount, OpenLoop.segCount, segCountList]
      have := closeThrough_sum lid st
      simp [stackSegCount] at this
      omega
    · simp [hmem, stackSegCount, OpenLoop.segCount, segCountList]
      omega
  | none =>
    cases st with
    | nil => simp [stepLoop, hg, stackSegCount, OpenLoop.segCount, segCountList]
    | cons top rest =>
      simp [stepLoop, hg, stackSegCount, OpenLoop.segCount, segCountList]
      omega

theorem foldl_stepLoop_sum (g : String → Option String) :
    ∀ (body : List Segment) (st : LoopStack),
      stackSegCount (body.foldl (stepLoop g) st)
        = stackSegCount st + body.length := by
  intro body
  induction body with
  | nil => intro st; simp
  | cons b body' ih =>
    intro st
    rw [List.foldl_cons, ih, stepLoop_sum]
    simp only [List.length_cons]
    omega

theorem closeAllGo_count : ∀ st l, (closeAllGo l st).segCount
    = l.segCount + stackSegCount st := by
  intro st
  induction st with
  | nil => intro l; simp [closeAllGo, stackSegCount]
  | cons o rest ih =>
    intro l
    rw [closeAllGo, ih]
    simp [Loop.segCount, segCountList_append, segCountList, stackSegCount,
          OpenLoop.segCount]
    omega

theorem closeAll_count (st : LoopStack) :
    (closeAll st).segCount = stackSegCount st := by
  cases st with
  | nil => simp [closeAll, Loop.segCount, segCountList, stackSegCount]
  | cons o rest =>
    rw [closeAll, closeAllGo_count, close_segCount]
    simp [stackSegCount]

theorem buildLoops_segCount (g : String → Option String) (ty : String)
    (body : List Segment) : (buildLoops g ty body).segCount = body.length := by
  rw [buildLoops, closeAll_count, foldl_stepLoop_sum]
  simp [stackSegCount, OpenLoop.segCount, segCountList]

theorem takeUntilSE_spec : ∀ l b r, takeUntilSE l = some (b, r) →
    l.length = b.length + 1 + r.length ∧ envCount l = envCount r + 1 ∧
    b.Sublist l ∧ r.Sublist l := by
  intro l
  induction l with
  | nil => intro b r h; simp [takeUntilSE] at h
  | cons s rest ih =>
    intro b r h
    simp only [takeUntilSE] at h
    by_cases hse : s.segId = "SE"
    · rw [if_pos hse] at h
      simp only [Option.some.injEq, Prod.mk.injEq] at h
      obtain ⟨rfl, rfl⟩ := h
      have henv : s.isEnvelope = true := by
        rw [Segment.isEnvelope, hse]; decide
      refine ⟨by simp only [List.length_cons, List.length_nil]; omega, ?_,
              List.nil_sublist _, (List.Sublist.refl rest).cons s⟩
      simp [envCount, List.filter_cons, henv]
    · rw [if_neg hse] at h
      by_cases henv : s.isEnvelope = true
      · simp [henv] at h
      · simp only [Bool.not_eq_true] at henv
        rw [henv] at h
        simp only [Bool.false_eq_true, if_false] at h
        cases ht : takeUntilSE rest with
        | none => rw [ht] at h; simp at h
        | some br =>
          obtain ⟨b', r'⟩ := br
          rw [ht] at h
          simp only [Option.some.injEq, Prod.mk.injEq] at h
          obtain ⟨rfl, rfl⟩ := h
          obtain ⟨hlen, henvc, hbs, hrs⟩ := ih b' r' ht
          refine ⟨by simp [hlen]; omega, ?_, hbs.cons₂ s, hrs.cons s⟩
          simp [envCount, List.filter_cons, henv] at henvc ⊢
          omega

theorem parseTxnsF_count (g : String → Option String) : ∀ fuel l txns r,
    parseTxnsF g fuel l = some (txns, r) →
    l.length + envCount r
      = (txns.map Transaction.segCount).sum + envCount l + r.length := by
  intro fuel
  induction fuel with
  | zero =>
    intro l txns r h
    cases l with
    | nil =>
      simp only [parseTxnsF, Option.some.injEq, Prod.mk.injEq] at h
      obtain ⟨rfl, rfl⟩ := h
      simp
    | cons s rest =>
      by_cases hst : s.segId = "ST"
      · simp only [parseTxnsF, if_pos hst] at h
        exact Option.noConfusion h
      · simp only [parseTxnsF, if_neg hst, Option.some.injEq, Prod.mk.injEq] at h
        obtain ⟨rfl, rfl⟩ := h
        simp only [List.map_nil, List.sum_nil, List.length_cons]
        omega
  | succ fuel ih =>
    intro l txns r h
    cases l with
    | nil =>
      simp only [parseTxnsF, Option.some.injEq, Prod.mk.injEq] at h
      obtain ⟨rfl, rfl⟩ := h
      simp
    | cons s rest =>
      by_cases hst : s.segId = "ST"
      · cases ht : takeUntilSE rest with
        | none =>
          simp only [parseTxnsF, if_pos hst, ht] at h
          exact Option.noConfusion h
        | some br =>
          obtain ⟨body, rem⟩ := br
          cases hp : parseTxnsF g fuel rem with
          | none =>
            simp only [parseTxnsF, if_pos hst, ht, hp] at h
            exact Option.noConfusion h
          | some tr =>
            obtain ⟨txns', after⟩ := tr
            simp only [parseTxnsF, if_pos hst, ht, hp, Option.some.injEq,
                       Prod.mk.injEq] at h
            obtain ⟨rfl, rfl⟩ := h
            obtain ⟨hlen, henvc, -, -⟩ := takeUntilSE_spec rest body rem ht
            have hih := ih rem txns' after hp
            have henv : envCount (s :: rest) = envCount rest + 1 := by
              have hsenv : s.isEnvelope = true := by
                rw [Segment.isEnvelope, hst]; decide
              simp [envCount, List.filter_cons, hsenv]
            simp only [List.map_cons, List.sum_cons, Transaction.segCount,
                       buildLoops_segCount, List.length_cons, henv]
            omega
      · simp only [parseTxnsF, if_neg hst, Option.some.injEq, Prod.mk.injEq] at h
        obtain ⟨rfl, rfl⟩ := h
        simp only [List.map_nil, List.sum_nil, List.length_cons]
        omega

theorem parseGroupsF_count (g : String → Option String) : ∀ fuel l groups r,
    parseGroupsF g fuel l = some (groups, r) →
    l.length + envCount r
      = (groups.map FunctionalGroup.segCount).sum + envCount l + r.length := by
  intro fuel
  induction fuel with
  | zero =>
    intro l groups r h
    cases l with
    | nil =>
      simp only [parseGroupsF, Option.some.injEq, Prod.mk.injEq] at h
      obtain ⟨rfl, rfl⟩ := h
      simp
    | cons s rest =>
      by_cases hgs : s.segId = "GS"
      · simp only [parseGroupsF, if_pos hgs] at h
        exact Option.noConfusion h
      · simp only [parseGroupsF, if_neg hgs, Option.some.injEq, Prod.mk.injEq] at h
        obtain ⟨rfl, rfl⟩ := h
        simp only [List.map_nil, List.sum_nil, List.length_cons]
        omega
  | succ fuel ih =>
    intro l groups r h
    cases l with
    | nil =>
      simp only [parseGroupsF, Option.some.injEq, Prod.mk.injEq] at h
      obtain ⟨rfl, rfl⟩ := h
      simp
    | cons s rest =>
      by_cases hgs : s.segId = "GS"
      · cases ht : parseTxns g rest with
        | none =>
          simp only [parseGroupsF, if_pos hgs, ht] at h
          exact Option.noConfusion h
        | some ta =>
          obtain ⟨txns, after⟩ := ta
          cases after with
          | nil =>
            simp only [parseGroupsF, if_pos hgs, ht] at h
            exact Option.noConfusion h
          | cons ge rem2 =>
            by_cases hge : ge.segId = "GE"
            · cases hp : parseGroupsF g fuel rem2 with
              | none =>
                simp only [parseGroupsF, if_pos hgs, ht, if_pos hge, hp] at h
                exact Option.noConfusion h
              | some grr =>
                obtain ⟨groups', rem3⟩ := grr
                simp only [parseGroupsF, if_pos hgs, ht, if_pos hge, hp,
                           Option.some.injEq, Prod.mk.injEq] at h
                obtain ⟨rfl, rfl⟩ := h
                have htc := parseTxnsF_count g rest.length rest txns (ge :: rem2) ht
                have hih := ih rem2 groups' rem3 hp
                have henvgs : envCount (s :: rest) = envCount rest + 1 := by
                  have hsenv : s.isEnvelope = true := by
                    rw [Segment.isEnvelope, hgs]; decide
                  simp [envCount, List.filter_cons, hsenv]
                have henvge : envCount (ge :: rem2) = envCount rem2 + 1 := by
                  have hgenv : ge.isEnvelope = true := by
                    rw [Segment.isEnvelope, hge]; decide
                  simp [envCount, List.filter_cons, hgenv]
                simp only [List.length_cons, henvge] at htc
                simp only [List.map_cons, List.sum_cons, FunctionalGroup.segCount,
                           List.length_cons, henvgs]
                omega
            · simp only [parseGroupsF, if_pos hgs, ht, if_neg hge] at h
              exact Option.noConfusion h
      · simp only [parseGroupsF, if_neg hgs, Option.some.injEq, Prod.mk.injEq] at h
        obtain ⟨rfl, rfl⟩ := h
        simp only [List.map_nil, List.sum_nil, List.length_cons]
        omega

/-- C1: for every document the tokenizer and parser accept, the number of
segments reachable by walking the generic tree equals the tokenizer's
total segment count minus the envelope/trailer segments (ISA, IEA, GS,
GE, ST, SE) consumed structurally. -/
theorem generic_tree_segment_count (raw : String) (g : String → Option String)
    (toks : List Segment) (env : Interchange)
    (htok : tokenize raw = .ok toks) (hparse : parseDoc g toks = some env) :
    env.segCount + envCount toks = toks.length ∧
    env.segCount = toks.length - envCount toks := by
  clear htok
  cases toks with
  | nil => simp [parseDoc] at hparse
  | cons isa rest =>
    by_cases hisa : isa.segId = "ISA"
    · cases hg : parseGroups g rest with
      | none =>
        simp only [parseDoc, if_pos hisa, hg] at hparse
        exact Option.noConfusion hparse
      | some gr =>
        obtain ⟨groups, remaining⟩ := gr
        cases remaining with
        | nil =>
          simp only [parseDoc, if_pos hisa, hg] at hparse
          exact Option.noConfusion hparse
        | cons iea rem2 =>
          cases rem2 with
          | nil =>
            by_cases hiea : iea.segId = "IEA"
            · simp only [parseDoc, if_pos hisa, hg, if_pos hiea,
                         Option.some.injEq] at hparse
              subst hparse
              have hgc := parseGroupsF_count g rest.length rest groups [iea] hg
              have henviea : envCount [iea] = 1 := by
                have hienv : iea.isEnvelope = true := by
                  rw [Segment.isEnvelope, hiea]; decide
                simp [envCount, List.filter_cons, hienv]
              have henvisa : envCount (isa :: rest) = envCount rest + 1 := by
                have hianv : isa.isEnvelope = true := by
                  rw [Segment.isEnvelope, hisa]; decide
                simp [envCount, List.filter_cons, hianv]
              have hsc : Interchange.segCount ⟨isa, groups⟩
                  = (groups.map FunctionalGroup.segCount).sum := by
                simp [Interchange.segCount]
              simp only [henviea, List.length_singleton] at hgc
              constructor
              · rw [hsc, henvisa]
                simp only [List.length_cons]
                omega
              · rw [hsc, henvisa]
                simp only [List.length_cons]
                omega
            · simp only [parseDoc, if_pos hisa, hg, if_neg hiea] at hparse
              exact Option.noConfusion hparse
          | cons x xs =>
            simp only [parseDoc, if_pos hisa, hg] at hparse
            exact Option.noConfusion hparse
    · simp only [parseDoc, if_neg hisa] at hparse
      exact Option.noConfusion hparse

set_option maxRecDepth 400000 in
/-- C1 witness: the concrete 837 document has 10 tokens, 6 envelope
segments, and its generic tree holds the remaining 4 segments. -/
theorem generic_tree_segment_count_witness :
    tokenize exRaw = .ok exToks ∧
    parseDoc exG exToks = some exEnv ∧
    exEnv.segCount = exToks.length - envCount exToks := by
  refine ⟨rfl, rfl, ?_⟩
  exact (generic_tree_segment_count exRaw exG exToks exEnv rfl rfl).2

/-! ### Loop-tree well-formedness (C4) -/

theorem allLoopsList_append (a b : List Loop) :
    allLoopsList (a ++ b) = allLoopsList a ++ allLoopsList b := by
  induction a with
  | nil => simp [allLoopsList]
  | cons l ls ih => simp [allLoopsList, ih]

theorem allLoops_close (o : OpenLoop) :
    (OpenLoop.close o).allLoops = OpenLoop.close o :: allLoopsList o.children := by
  simp [OpenLoop.close, Loop.allLoops]

theorem StackOK_weaken (p : List Segment) (s : Segment) (st : LoopStack)
    (h : StackOK p st) : StackOK (p ++ [s]) st := by
  intro o ho
  obtain ⟨h1, h2⟩ := h o ho
  exact ⟨h1.trans (List.sublist_append_left p [s]),
         fun l hl => (h2 l hl).trans (List.sublist_append_left p [s])⟩

theorem closeThroughGo_ok (lid : String) (p : List Segment) : ∀ st top,
    (top.segs.Sublist p ∧ ∀ l ∈ allLoopsList top.children, l.segs.Sublist p) →
    StackOK p st → StackOK p (closeThroughGo lid top st) := by
  intro st
  induction st with
  | nil =>
    intro top htop _
    intro o ho
    simp only [closeThroughGo, List.mem_singleton] at ho
    subst ho
    exact htop
  | cons q rest ih =>
    intro top htop hst
    obtain ⟨hq1, hq2⟩ := hst q (List.mem_cons_self q rest)
    have hrest : StackOK p rest := fun o ho => hst o (List.mem_cons_of_mem q ho)
    have hmerged : ({ q with children := q.children ++ [top.close] } : OpenLoop).segs.Sublist p ∧
        ∀ l ∈ allLoopsList ({ q with children := q.children ++ [top.close] } : OpenLoop).children,
          l.segs.Sublist p := by
      refine ⟨hq1, fun l hl => ?_⟩
      simp only [allLoopsList_append] at hl
      rcases List.mem_append.mp hl with hl | hl
      · exact hq2 l hl
      · simp only [allLoopsList, List.append_nil, allLoops_close] at hl
        rcases List.mem_cons.mp hl with rfl | hl
        · exact htop.1
        · exact htop.2 l hl
    simp only [closeThroughGo]
    split
    · intro o ho
      rcases List.mem_cons.mp ho with rfl | ho
      · exact hmerged
      · exact hrest o ho
    · exact ih _ hmerged hrest

theorem closeThrough_ok (lid : String) (p : List Segment) (st : LoopStack)
    (h : StackOK p st) : StackOK p (closeThrough lid st) := by
  cases st with
  | nil => exact h
  | cons o rest =>
    rw [closeThrough]
    exact closeThroughGo_ok lid p rest o (h o (List.mem_cons_self o rest))
      (fun q hq => h q (List.mem_cons_of_mem o hq))

theorem stepLoop_ok (g : String → Option String) (p : List Segment)
    (st : LoopStack) (s : Segment) (h : StackOK p st) :
    StackOK (p ++ [s]) (stepLoop g st s) := by
  have hweak : StackOK (p ++ [s]) st := StackOK_weaken p s st h
  cases hg : g s.segId with
  | some lid =>
    simp only [stepLoop, hg]
    intro o ho
    rcases List.mem_cons.mp ho with rfl | ho
    · exact ⟨List.sublist_append_right p [s], by simp [allLoopsList]⟩
    · by_cases hmem : lid ∈ stackIds st
      · simp only [if_pos hmem] at ho
        exact closeThrough_ok lid (p ++ [s]) st hweak o ho
      · simp only [if_neg hmem] at ho
        exact hweak o ho
  | none =>
    cases st with
    | nil =>
      simp only [stepLoop, hg]
      intro o ho
      simp only [List.mem_singleton] at ho
      subst ho
      exact ⟨List.sublist_append_right p [s], by simp [allLoopsList]⟩
    | cons top rest =>
      simp only [stepLoop, hg]
      intro o ho
      rcases List.mem_cons.mp ho with rfl | ho
      · obtain ⟨h1, h2⟩ := h top (List.mem_cons_self top rest)
        exact ⟨h1.append (List.Sublist.refl [s]), fun l hl =>
          (h2 l hl).trans (List.sublist_append_left p [s])⟩
      · exact hweak o (List.mem_cons_of_mem top ho)

theorem foldl_stepLoop_ok (g : String → Option String) :
    ∀ (body : List Segment) (p : List Segment) (st : LoopStack),
      StackOK p st → StackOK (p ++ body) (body.foldl (stepLoop g) st) := by
  intro body
  induction body with
  | nil => intro p st h; simpa using h
  | cons b body' ih =>
    intro p st h
    rw [List.foldl_cons]
    have := ih (p ++ [b]) (stepLoop g st b) (stepLoop_ok g p st b h)
    simpa [List.append_assoc] using this

theorem closeAllGo_ok : ∀ (st : LoopStack) (l : Loop) (p : List Segment),
    (∀ x ∈ l.allLoops, x.segs.Sublist p) → StackOK p st →
    ∀ x ∈ (closeAllGo l st).allLoops, x.segs.Sublist p := by
  intro st
  induction st with
  | nil => intro l p hl _; simpa [closeAllGo] using hl
  | cons o rest ih =>
    intro l p hl hst
    rw [closeAllGo]
    obtain ⟨ho1, ho2⟩ := hst o (List.mem_cons_self o rest)
    refine ih _ p ?_ (fun q hq => hst q (List.mem_cons_of_mem o hq))
    intro x hx
    simp only [Loop.allLoops, allLoopsList_append] at hx
    rcases List.mem_cons.mp hx with rfl | hx
    · exact ho1
    · rcases List.mem_append.mp hx with hx | hx
      · exact ho2 x hx
      · simp only [allLoopsList, List.append_nil] at hx
        exact hl x hx

theorem closeAll_ok (st : LoopStack) (p : List Segment) (h : StackOK p st) :
    ∀ x ∈ (closeAll st).allLoops, x.segs.Sublist p := by
  cases st with
  | nil =>
    intro x hx
    simp only [closeAll, Loop.allLoops, allLoopsList, List.mem_singleton] at hx
    subst hx
    simp [Loop.segs]
  | cons o rest =>
    rw [closeAll]
    obtain ⟨h1, h2⟩ := h o (List.mem_cons_self o rest)
    refine closeAllGo_ok rest (OpenLoop.close o) p ?_
      (fun q hq => h q (List.mem_cons_of_mem o hq))
    intro x hx
    rw [allLoops_close] at hx
    rcases List.mem_cons.mp hx with rfl | hx
    · exact h1
    · exact h2 x hx

theorem buildLoops_order (g : String → Option String) (ty : String)
    (body : List Segment) :
    ∀ x ∈ (buildLoops g ty body).allLoops, x.segs.Sublist body := by
  have hinit : StackOK [] [⟨ty, [], []⟩] := by
    intro o ho
    simp only [List.mem_singleton] at ho
    subst ho
    exact ⟨List.Sublist.refl [], by simp [allLoopsList]⟩
  have := closeAll_ok _ _ (foldl_stepLoop_ok g body [] _ hinit)
  simpa [buildLoops] using this

theorem parseTxnsF_rem (g : String → Option String) : ∀ fuel l txns r,
    parseTxnsF g fuel l = some (txns, r) → r.Sublist l := by
  intro fuel
  induction fuel with
  | zero =>
    intro l txns r h
    cases l with
    | nil =>
      simp only [parseTxnsF, Option.some.injEq, Prod.mk.injEq] at h
      obtain ⟨rfl, rfl⟩ := h
      exact List.Sublist.refl _
    | cons s rest =>
      by_cases hst : s.segId = "ST"
      · simp only [parseTxnsF, if_pos hst] at h
        exact Option.noConfusion h
      · simp only [parseTxnsF, if_neg hst, Option.some.injEq, Prod.mk.injEq] at h
        obtain ⟨rfl, rfl⟩ := h
        exact List.Sublist.refl _
  | succ fuel ih =>
    intro l txns r h
    cases l with
    | nil =>
      simp only [parseTxnsF, Option.some.injEq, Prod.mk.injEq] at h
      obtain ⟨rfl, rfl⟩ := h
      exact List.Sublist.refl _
    | cons s rest =>
      by_cases hst : s.segId = "ST"
      · cases ht : takeUntilSE rest with
        | none =>
          simp only [parseTxnsF, if_pos hst, ht] at h
          exact Option.noConfusion h
        | some br =>
          obtain ⟨body, rem⟩ := br
          cases hp : parseTxnsF g fuel rem with
          | none =>
            simp only [parseTxnsF, if_pos hst, ht, hp] at h
            exact Option.noConfusion h
          | some tr =>
            obtain ⟨txns', after⟩ := tr
            simp only [parseTxnsF, if_pos hst, ht, hp, Option.some.injEq,
                       Prod.mk.injEq] at h
            obtain ⟨rfl, rfl⟩ := h
            obtain ⟨-, -, -, hrs⟩ := takeUntilSE_spec rest body rem ht
            exact ((ih rem txns' after hp).trans hrs).cons s
      · simp only [parseTxnsF, if_neg hst, Option.some.injEq, Prod.mk.injEq] at h
        obtain ⟨rfl, rfl⟩ := h
        exact List.Sublist.refl _

theorem parseTxnsF_loops (g : String → Option String) : ∀ fuel l txns r,
    parseTxnsF g fuel l = some (txns, r) →
    ∀ t ∈ txns, ∀ lp ∈ t.root.allLoops, lp.segs.Sublist l := by
  intro fuel
  induction fuel with
  | zero =>
    intro l txns r h
    cases l with
    | nil =>
      simp only [parseTxnsF, Option.some.injEq, Prod.mk.injEq] at h
      obtain ⟨rfl, rfl⟩ := h
      simp
    | cons s rest =>
      by_cases hst : s.segId = "ST"
      · simp only [parseTxnsF, if_pos hst] at h
        exact Option.noConfusion h
      · simp only [parseTxnsF, if_neg hst, Option.some.injEq, Prod.mk.injEq] at h
        obtain ⟨rfl, rfl⟩ := h
        simp
  | succ fuel ih =>
    intro l txns r h
    cases l with
    | nil =>
      simp only [parseTxnsF, Option.some.injEq, Prod.mk.injEq] at h
      obtain ⟨rfl, rfl⟩ := h
      simp
    | cons s rest =>
      by_cases hst : s.segId = "ST"
      · cases ht : takeUntilSE rest with
        | none =>
          simp only [parseTxnsF, if_pos hst, ht] at h
          exact Option.noConfusion h
        | some br =>
          obtain ⟨body, rem⟩ := br
          cases hp : parseTxnsF g fuel rem with
          | none =>
            simp only [parseTxnsF, if_pos hst, ht, hp] at h
            exact Option.noConfusion h
          | some tr =>
            obtain ⟨txns', after⟩ := tr
            simp only [parseTxnsF, if_pos hst, ht, hp, Option.some.injEq,
                       Prod.mk.injEq] at h
            obtain ⟨rfl, rfl⟩ := h
            obtain ⟨-, -, hbs, hrs⟩ := takeUntilSE_spec rest body rem ht
            intro t ht'
            rcases List.mem_cons.mp ht' with rfl | ht'
            · intro lp hlp
              exact ((buildLoops_order g _ body lp hlp).trans hbs).cons s
            · intro lp hlp
              exact ((ih rem txns' after hp t ht' lp hlp).trans hrs).cons s
      · simp only [parseTxnsF, if_neg hst, Option.some.injEq, Prod.mk.injEq] at h
        obtain ⟨rfl, rfl⟩ := h
        simp

theorem parseGroupsF_loops (g : String → Option String) : ∀ fuel l groups r,
    parseGroupsF g fuel l = some (groups, r) →
    ∀ fg ∈ groups, ∀ t ∈ fg.txns, ∀ lp ∈ t.root.allLoops, lp.segs.Sublist l := by
  intro fuel
  induction fuel with
  | zero =>
    intro l groups r h
    cases l with
    | nil =>
      simp only [parseGroupsF, Option.some.injEq, Prod.mk.injEq] at h
      obtain ⟨rfl, rfl⟩ := h
      simp
    | cons s rest =>
      by_cases hgs : s.segId = "GS"
      · simp only [parseGroupsF, if_pos hgs] at h
        exact Option.noConfusion h
      · simp only [parseGroupsF, if_neg hgs, Option.some.injEq, Prod.mk.injEq] at h
        obtain ⟨rfl, rfl⟩ := h
        simp
  | succ fuel ih =>
    intro l groups r h
    cases l with
    | nil =>
      simp only [parseGroupsF, Option.some.injEq, Prod.mk.injEq] at h
      obtain ⟨rfl, rfl⟩ := h
      simp
    | cons s rest =>
      by_cases hgs : s.segId = "GS"
      · cases ht : parseTxns g rest with
        | none =>
          simp only [parseGroupsF, if_pos hgs, ht] at h
          exact Option.noConfusion h
        | some ta =>
          obtain ⟨txns, after⟩ := ta
          cases after with
          | nil =>
            simp only [parseGroupsF, if_pos hgs, ht] at h
            exact Option.noConfusion h
          | cons ge rem2 =>
            by_cases hge : ge.segId = "GE"
            · cases hp : parseGroupsF g fuel rem2 with
              | none =>
                simp only [parseGroupsF, if_pos hgs, ht, if_pos hge, hp] at h
                exact Option.noConfusion h
              | some grr =>
                obtain ⟨groups', rem3⟩ := grr
                simp only [parseGroupsF, if_pos hgs, ht, if_pos hge, hp,
                           Option.some.injEq, Prod.mk.injEq] at h
                obtain ⟨rfl, rfl⟩ := h
                have hrem : (ge :: rem2).Sublist rest :=
                  parseTxnsF_rem g rest.length rest txns (ge :: rem2) ht
                have hrem2 : rem2.Sublist rest :=
                  ((List.Sublist.refl rem2).cons ge).trans hrem
                intro fg hfg
                rcases List.mem_cons.mp hfg with rfl | hfg
                · intro t ht' lp hlp
                  exact (parseTxnsF_loops g rest.length rest txns (ge :: rem2) ht
                    t ht' lp hlp).cons s
                · intro t ht' lp hlp
                  exact ((ih rem2 groups' rem3 hp fg hfg t ht' lp hlp).trans hrem2).cons s
            · simp only [parseGroupsF, if_pos hgs, ht, if_neg hge] at h
              exact Option.noConfusion h
      · simp only [parseGroupsF, if_neg hgs, Option.some.injEq, Prod.mk.injEq] at h
        obtain ⟨rfl, rfl⟩ := h
        simp

theorem child_sizeOf (c p : Loop) (h : c ∈ p.children) : sizeOf c < sizeOf p := by
  cases p with
  | mk i s cs =>
    simp only [Loop.children] at h
    have := List.sizeOf_lt_of_mem h
    simp only [Loop.mk.sizeOf_spec]
    omega

theorem mem_allLoopsList_of_mem (x : Loop) : ∀ loops : List Loop,
    x ∈ loops → x ∈ allLoopsList loops := by
  intro loops
  induction loops with
  | nil => intro h; simp at h
  | cons l ls ih =>
    intro h
    rcases List.mem_cons.mp h with rfl | h
    · cases x with
      | mk i s c => simp [allLoopsList, Loop.allLoops]
    · simp only [allLoopsList, List.mem_append]
      exact Or.inr (ih h)

theorem findLoop_sound (lid : String) (loops : List Loop) (r : Loop)
    (h : findLoop lid loops = some r) :
    r ∈ allLoopsList loops ∧ r.loopId = lid := by
  cases loops with
  | nil =>
    rw [findLoop] at h
    exact Option.noConfusion h
  | cons l ls =>
    cases hfind : (l :: ls).find? (fun x => x.loopId == lid) with
    | some x =>
      simp only [findLoop, hfind, Option.some.injEq] at h
      subst h
      exact ⟨mem_allLoopsList_of_mem x (l :: ls) (List.mem_of_find?_eq_some hfind),
             by simpa using List.find?_some hfind⟩
    | none =>
      cases hsub : findLoop lid l.children with
      | some rc =>
        simp only [findLoop, hfind, hsub, Option.some.injEq] at h
        subst h
        obtain ⟨hm, hid⟩ := findLoop_sound lid l.children rc hsub
        refine ⟨?_, hid⟩
        simp only [allLoopsList, List.mem_append]
        left
        cases l with
        | mk i s c =>
          simp only [Loop.allLoops, Loop.children] at hm ⊢
          exact List.mem_cons_of_mem _ hm
      | none =>
        simp only [findLoop, hfind, hsub] at h
        obtain ⟨hm, hid⟩ := findLoop_sound lid ls r h
        refine ⟨?_, hid⟩
        simp only [allLoopsList, List.mem_append]
        exact Or.inr hm
termination_by sizeOf loops
decreasing_by
  all_goals
    subst_vars
    cases l with
    | mk i s c =>
      simp only [Loop.children, Loop.mk.sizeOf_spec, List.cons.sizeOf_spec]
      omega

/-- C4: loop nesting in the parser's output is a well-formed tree — no
loop node is reachable from itself through child links — each loop's
segments appear in the same relative order as in the source token stream,
and the recursive depth-first loop search is a total function that only
returns loops of the searched forest. -/
theorem loop_tree_wellformed (g : String → Option String) (toks : List Segment)
    (env : Interchange) (hparse : parseDoc g toks = some env) :
    (∀ l : Loop, ¬ Relation.TransGen (fun c p => c ∈ p.children) l l) ∧
    (∀ fg ∈ env.groups, ∀ t ∈ fg.txns, ∀ l ∈ t.root.allLoops,
       l.segs.Sublist toks) ∧
    (∀ lid loops r, findLoop lid loops = some r →
       r ∈ allLoopsList loops ∧ r.loopId = lid) := by
  refine ⟨?_, ?_, fun lid loops r h => findLoop_sound lid loops r h⟩
  · intro l hl
    have key : ∀ a b : Loop, Relation.TransGen (fun c p => c ∈ p.children) a b →
        sizeOf a < sizeOf b := by
      intro a b h
      induction h with
      | single h => exact child_sizeOf _ _ h
      | tail hab hbc ihab => exact Nat.lt_trans ihab (child_sizeOf _ _ hbc)
    exact Nat.lt_irrefl _ (key l l hl)
  · cases toks with
    | nil => simp [parseDoc] at hparse
    | cons isa rest =>
      by_cases hisa : isa.segId = "ISA"
      · cases hg : parseGroups g rest with
        | none =>
          simp only [parseDoc, if_pos hisa, hg] at hparse
          exact Option.noConfusion hparse
        | some gr =>
          obtain ⟨groups, remaining⟩ := gr
          cases remaining with
          | nil =>
            simp only [parseDoc, if_pos hisa, hg] at hparse
            exact Option.noConfusion hparse
          | cons iea rem2 =>
            cases rem2 with
            | nil =>
              by_cases hiea : iea.segId = "IEA"
              · simp only [parseDoc, if_pos hisa, hg, if_pos hiea,
                           Option.some.injEq] at hparse
                subst hparse
                intro fg hfg t ht lp hlp
                exact (parseGroupsF_loops g rest.length rest groups [iea] hg
                  fg hfg t ht lp hlp).cons isa
              · simp only [parseDoc, if_pos hisa, hg, if_neg hiea] at hparse
                exact Option.noConfusion hparse
            | cons x xs =>
              simp only [parseDoc, if_pos hisa, hg] at hparse
              exact Option.noConfusion hparse
      · simp only [parseDoc, if_neg hisa] at hparse
        exact Option.noConfusion hparse

set_option maxRecDepth 400000 in
/-- C4 witness: the concrete document parses and each loop's segment list
is a subsequence of the token stream. -/
theorem loop_tree_wellformed_witness :
    parseDoc exG exToks = some exEnv ∧
    ∀ fg ∈ exEnv.groups, ∀ t ∈ fg.txns, ∀ l ∈ t.root.allLoops,
      l.segs.Sublist exToks := by
  exact ⟨rfl, (loop_tree_wellformed exG exToks exEnv rfl).2.1⟩

/-! ### Batch isolation (C8) -/

theorem batchGo_allOk (g : String → Option String) (schema : String → Nat → Option String)
    (m : MappingDef) : ∀ (ds : List String) (i : Nat),
    (∀ j (hj : j < ds.length), ∃ out, processDoc g schema m ds[j] = .ok out) →
    (batchGo g schema m i ds).errors = [] ∧
    (batchGo g schema m i ds).results.length = ds.length ∧
    (batchGo g schema m i ds).results.map Prod.fst = List.range' i ds.length ∧
    ∀ p ∈ (batchGo g schema m i ds).results,
      ∃ j, ∃ hj : j < ds.length, p.1 = i + j ∧ processDoc g schema m ds[j] = .ok p.2 := by
  intro ds
  induction ds with
  | nil =>
    intro i _
    refine ⟨rfl, rfl, rfl, ?_⟩
    intro p hp
    simp [batchGo] at hp
  | cons d ds' ih =>
    intro i hok
    obtain ⟨out₀, hout₀⟩ := hok 0 (by simp)
    have hok' : ∀ j (hj : j < ds'.length), ∃ out, processDoc g schema m ds'[j] = .ok out := by
      intro j hj
      have := hok (j + 1) (by simpa using hj)
      simpa using this
    obtain ⟨ihe, ihl, ihm, ihmem⟩ := ih (i + 1) hok'
    have hbg : batchGo g schema m i (d :: ds')
        = ⟨(i, out₀) :: (batchGo g schema m (i + 1) ds').results,
           (batchGo g schema m (i + 1) ds').errors⟩ := by
      simp only [batchGo]
      rw [show processDoc g schema m d = .ok out₀ from hout₀]
    refine ⟨by rw [hbg]; exact ihe, by rw [hbg]; simp [ihl], ?_, ?_⟩
    · rw [hbg]
      simp only [List.map_cons, ihm, List.length_cons, List.range'_succ]
    · rw [hbg]
      intro p hp
      rcases List.mem_cons.mp hp with rfl | hp
      · exact ⟨0, by simp, by simp, hout₀⟩
      · obtain ⟨j, hj, hpj, hpo⟩ := ihmem p hp
        exact ⟨j + 1, by simpa using hj, by omega, by simpa using hpo⟩

theorem batchGo_one_fail (g : String → Option String)
    (schema : String → Nat → Option String) (m : MappingDef) :
    ∀ (ds : List String) (i k : Nat) (e : PipeErr) (hk : k < ds.length),
    processDoc g schema m ds[k] = .error e →
    (∀ j (hj : j < ds.length), j ≠ k → ∃ out, processDoc g schema m ds[j] = .ok out) →
    (batchGo g schema m i ds).errors = [(i + k, e)] ∧
    (batchGo g schema m i ds).results.length = ds.length - 1 ∧
    (batchGo g schema m i ds).results.map Prod.fst
      = (List.range' i ds.length).filter (fun j => j != i + k) ∧
    ∀ p ∈ (batchGo g schema m i ds).results,
      ∃ j, ∃ hj : j < ds.length, p.1 = i + j ∧ j ≠ k ∧
        processDoc g schema m ds[j] = .ok p.2 := by
  intro ds
  induction ds with
  | nil =>
    intro i k e hk
    simp at hk
  | cons d ds' ih =>
    intro i k e hk hfail hok
    cases k with
    | zero =>
      have hfail0 : processDoc g schema m d = .error e := by simpa using hfail
      have hok' : ∀ j (hj : j < ds'.length), ∃ out, processDoc g schema m ds'[j] = .ok out := by
        intro j hj
        have := hok (j + 1) (by simpa using hj) (by omega)
        simpa using this
      obtain ⟨ae, al, am, amem⟩ := batchGo_allOk g schema m ds' (i + 1) hok'
      have hbg : batchGo g schema m i (d :: ds')
          = ⟨(batchGo g schema m (i + 1) ds').results,
             (i, e) :: (batchGo g schema m (i + 1) ds').errors⟩ := by
        simp only [batchGo]
        rw [show processDoc g schema m d = .error e from hfail0]
      refine ⟨by rw [hbg]; simp [ae], by rw [hbg]; simp [al], ?_, ?_⟩
      · rw [hbg]
        simp only [am, List.length_cons, List.range'_succ, Nat.add_zero]
        rw [List.filter_cons]
        have hcond : (i != i) = false := by simp
        rw [hcond]
        simp only [Bool.false_eq_true, if_false]
        have : ∀ x ∈ List.range' (i + 1) ds'.length, (x != i) = true := by
          intro x hx
          rcases List.mem_range'.mp hx with ⟨j, hj, rfl⟩
          simp only [bne_iff_ne]
          omega
        rw [List.filter_eq_self.mpr this]
      · rw [hbg]
        intro p hp
        obtain ⟨j, hj, hpj, hpo⟩ := amem p hp
        exact ⟨j + 1, by simpa using hj, by omega, by omega, by simpa using hpo⟩
    | succ k' =>
      have hk' : k' < ds'.length := by simpa using hk
      have hfail' : processDoc g schema m ds'[k'] = .error e := by simpa using hfail
      have hok' : ∀ j (hj : j < ds'.length), j ≠ k' →
          ∃ out, processDoc g schema m ds'[j] = .ok out := by
        intro j hj hne
        have := hok (j + 1) (by simpa using hj) (by omega)
        simpa using this
      obtain ⟨out₀, hout₀⟩ := hok 0 (by simp) (by omega)
      have hout₀' : processDoc g schema m d = .ok out₀ := by simpa using hout₀
      obtain ⟨ie, il, im, imem⟩ := ih (i + 1) k' e hk' hfail' hok'
      have hbg : batchGo g schema m i (d :: ds')
          = ⟨(i, out₀) :: (batchGo g schema m (i + 1) ds').results,
             (batchGo g schema m (i + 1) ds').errors⟩ := by
        simp only [batchGo]
        rw [show processDoc g schema m d = .ok out₀ from hout₀']
      have harith : i + 1 + k' = i + (k' + 1) := by omega
      refine ⟨by rw [hbg, ie, harith], by rw [hbg]; simp [il]; omega, ?_, ?_⟩
      · rw [hbg]
        simp only [List.map_cons, im, List.length_cons, List.range'_succ]
        rw [List.filter_cons]
        have hcond : (i != i + (k' + 1)) = true := by
          simp only [bne_iff_ne]
          omega
        rw [hcond]
        simp only [if_true]
        rw [harith]
      · rw [hbg]
        intro p hp
        rcases List.mem_cons.mp hp with rfl | hp
        · exact ⟨0, by simp, by simp, by omega, hout₀'⟩
        · obtain ⟨j, hj, hpj, hne, hpo⟩ := imem p hp
          exact ⟨j + 1, by simpa using hj, by omega, by omega, by simpa using hpo⟩

/-- C8: a batch with exactly one malformed document yields one error entry
keyed by that document's position, successful results for every other
document in their original order, and each result is exactly what
processing that document alone produces. -/
theorem batch_isolation (g : String → Option String)
    (schema : String → Nat → Option String) (m : MappingDef)
    (docs : List String) (k : Nat) (e : PipeErr) (hk : k < docs.length)
    (hfail : processDoc g schema m docs[k] = .error e)
    (hok : ∀ j (hj : j < docs.length), j ≠ k →
      ∃ out, processDoc g schema m docs[j] = .ok out) :
    (processBatch g schema m docs).errors = [(k, e)] ∧
    (processBatch g schema m docs).results.length = docs.length - 1 ∧
    (processBatch g schema m docs).results.map Prod.fst
      = (List.range docs.length).filter (fun j => j != k) ∧
    ∀ p ∈ (processBatch g schema m docs).results,
      ∃ hj : p.1 < docs.length, p.1 ≠ k ∧
        processDoc g schema m docs[p.1] = .ok p.2 := by
  obtain ⟨he, hl, hm, hmem⟩ :=
    batchGo_one_fail g schema m docs 0 k e hk hfail hok
  refine ⟨by simpa using he, hl, ?_, ?_⟩
  · rw [List.range_eq_range']
    simpa using hm
  · intro p hp
    obtain ⟨j, hj, hpj, hne, hpo⟩ := hmem p hp
    have hpj' : p.1 = j := by omega
    subst hpj'
    exact ⟨hj, hne, hpo⟩

set_option maxRecDepth 400000 in
set_option maxHeartbeats 2000000 in
/-- C8 witness: of three documents where the middle one is malformed, the
batch yields two results (positions 0 and 2) and one error at position 1. -/
theorem batch_isolation_witness :
    (1 : Nat) < exBatchDocs.length ∧
    processDoc exG exSchema exMapping exBatchDocs[1] = .error .malformedEnvelope ∧
    (processBatch exG exSchema exMapping exBatchDocs).errors
      = [(1, PipeErr.malformedEnvelope)] ∧
    (processBatch exG exSchema exMapping exBatchDocs).results.map Prod.fst
      = [0, 2] := by
  have h := batch_isolation exG exSchema exMapping exBatchDocs 1
    PipeErr.malformedEnvelope (by decide) rfl
    (by
      intro j hj hne
      match j with
      | 0 => exact ⟨.obj [], rfl⟩
      | 1 => exact absurd rfl hne
      | 2 => exact ⟨.obj [], rfl⟩
      | n + 3 => simp [exBatchDocs] at hj)
  refine ⟨by decide, rfl, h.1, ?_⟩
  rw [h.2.2.1]
  decide

/-- C10 witness: the two-letter qualifier code `IL` (entered as " il ") is
dispatched to the segment branch. -/
theorem segment_lookup_dispatch_witness :
    (normalizeQuery " il ".data).length ≤ 3 ∧
    pyIsAlpha (normalizeQuery " il ".data) = true ∧
    lookupDispatch " il ".data = .segment := by
  refine ⟨by decide, by decide, ?_⟩
  exact (segment_lookup_dispatch_classification " il ".data).1 (by decide) (by decide)

end PyEDI
